import Mathlib

/-!
Shallow embedding of the duplicate-finder core (finder.py) and proofs about
its grouping, hashing, scanning and relabeling behaviour.

Python strings are modelled as their character lists where character-level
operations matter (fingerprints and bucket keys), and as `String` elsewhere.
Python's insertion-ordered `dict` is modelled as an association list, and
`setdefault(k, []).append(i)` as `dictInsert`.  The in-place `parent` array
of the union-find is threaded explicitly as a `List Nat`.
-/

/-- One entry per successfully decoded image file (finder.py, `ImageRecord`
dataclass, lines 59-68).  `mtime` is a float in the source; no claim depends
on its arithmetic, so it is carried as an integer timestamp. -/
structure ImageRecord where
  path : String
  size_bytes : Nat
  mtime : Int
  width : Nat
  height : Nat
  hash_str : List Char
  group_id : Option Nat := none
  marked_for_delete : Bool := false
  deriving Repr, DecidableEq

instance : Inhabited ImageRecord :=
  ⟨{ path := "", size_bytes := 0, mtime := 0, width := 0, height := 0, hash_str := [] }⟩

/-- Numeric value of a hex digit, as Python `int(c, 16)` on the hex alphabet
(imagehash fingerprints are lowercase hex; uppercase handled the same way). -/
def hexVal (c : Char) : Nat :=
  if '0' ≤ c ∧ c ≤ '9' then c.toNat - 48
  else if 'a' ≤ c ∧ c ≤ 'f' then c.toNat - 87
  else if 'A' ≤ c ∧ c ≤ 'F' then c.toNat - 55
  else 0

/-- The four bits of one hex digit, most significant first. -/
def hexCharBits (c : Char) : List Bool :=
  [(hexVal c).testBit 3, (hexVal c).testBit 2, (hexVal c).testBit 1, (hexVal c).testBit 0]

/-- Bit vector denoted by a hex fingerprint string: `imagehash.hex_to_hash`
parses the hex string into the big-endian bit array of the underlying hash
(for the well-formed fingerprints the engine produces, this is exactly the
per-digit 4-bit expansion). -/
def hexToBits (s : List Char) : List Bool := (s.map hexCharBits).flatten

namespace HashEngine

/-- The `HashEngine.hamming_distance` static method (finder.py lines 101-103):
`imagehash.hex_to_hash(h1) - imagehash.hex_to_hash(h2)`, which counts the
differing bit positions of the two parsed bit arrays.  imagehash raises on
arrays of different shapes; fingerprints compared by the program all come
from one engine configuration and have equal length, on which this `zip`
formulation agrees with the source. -/
def hamming_distance (h1 h2 : List Char) : Nat :=
  ((hexToBits h1).zip (hexToBits h2)).countP (fun bb => bb.1 != bb.2)

end HashEngine

/-- Module-level default `BUCKET_PREFIX_HEX_CHARS = 4` (finder.py line 56). -/
def BUCKET_PREFIX_HEX_CHARS : Int := 4

/-- The grouper's state after `__init__` (finder.py lines 106-109). -/
structure DupeGrouper where
  threshold : Int
  bucket_hex_chars : Int
  deriving Repr, DecidableEq

/-- `DupeGrouper.__init__` (finder.py lines 107-109):
`self.threshold = max(0, threshold)` and
`self.bucket_hex_chars = max(1, bucket_hex_chars)`. -/
def DupeGrouper.init (threshold : Int)
    (bucket_hex_chars : Int := BUCKET_PREFIX_HEX_CHARS) : DupeGrouper :=
  { threshold := max 0 threshold, bucket_hex_chars := max 1 bucket_hex_chars }

/-- The bucket key `rec.hash_str[:self.bucket_hex_chars]` (finder.py line 114). -/
def DupeGrouper.bucketKey (g : DupeGrouper) (r : ImageRecord) : List Char :=
  r.hash_str.take g.bucket_hex_chars.toNat

/-- `d.setdefault(k, []).append(i)` on a CPython insertion-ordered dict,
modelled on an association list. -/
def dictInsert {κ : Type} [DecidableEq κ] :
    List (κ × List Nat) → κ → Nat → List (κ × List Nat)
  | [], k, i => [(k, [i])]
  | (k', v) :: rest, k, i =>
    if k' = k then (k', v ++ [i]) :: rest else (k', v) :: dictInsert rest k i

/-- The bucket-building loop of `build_groups` (finder.py lines 112-114),
generalized over the running index. -/
def mkBucketsAux (g : DupeGrouper) :
    List ImageRecord → Nat → List (List Char × List Nat) → List (List Char × List Nat)
  | [], _, bs => bs
  | r :: rs, i, bs => mkBucketsAux g rs (i + 1) (dictInsert bs (g.bucketKey r) i)

/-- `buckets` as built by finder.py lines 112-114. -/
def mkBuckets (g : DupeGrouper) (records : List ImageRecord) : List (List Char × List Nat) :=
  mkBucketsAux g records 0 []

/-- The `find` closure of `build_groups` (finder.py lines 117-121):
`while parent[i] != i: parent[i] = parent[parent[i]]; i = parent[i]`.
The fuel argument bounds the number of loop iterations; on every state the
algorithm reaches, the parent array is a forest and `len(parent)` iterations
suffice (proved below), so the embedding agrees with the source there. -/
def findAux : Nat → List Nat → Nat → List Nat × Nat
  | 0, p, i => (p, i)
  | fuel + 1, p, i =>
    if p.getD i 0 = i then (p, i)
    else findAux fuel (p.set i (p.getD (p.getD i 0) 0)) (p.getD (p.getD i 0) 0)

/-- `find(i)` with the path-halving side effect on `parent` made explicit. -/
def find (p : List Nat) (i : Nat) : List Nat × Nat := findAux p.length p i

/-- The `union` closure of `build_groups` (finder.py lines 122-125):
`ra, rb = find(a), find(b); if ra != rb: parent[rb] = ra`. -/
def union (p : List Nat) (a b : Nat) : List Nat :=
  let fa := find p a
  let fb := find fa.1 b
  if fa.2 ≠ fb.2 then fb.1.set fb.2 fa.2 else fb.1

/-- The body of the innermost pair loop (finder.py lines 135-141): union on
identical fingerprints, otherwise union iff the Hamming distance is within
the threshold. -/
def maybeUnion (g : DupeGrouper) (records : List ImageRecord) (p : List Nat)
    (a b : Nat) : List Nat :=
  let hi := (records.getD a default).hash_str
  let hj := (records.getD b default).hash_str
  if hi = hj then union p a b
  else if (HashEngine.hamming_distance hi hj : Int) ≤ g.threshold then union p a b
  else p

/-- The double loop over one bucket's index list (finder.py lines 127-141):
each earlier index is compared against every later one. -/
def processBucket (g : DupeGrouper) (records : List ImageRecord) :
    List Nat → List Nat → List Nat
  | p, [] => p
  | p, a :: rest =>
    processBucket g records (rest.foldl (fun p' b => maybeUnion g records p' a b) p) rest

/-- The parent array after the whole bucketed union phase of `build_groups`
(finder.py lines 116-141): `parent = list(range(len(records)))` followed by
the double loop over every bucket. -/
def unionPhase (g : DupeGrouper) (records : List ImageRecord) : List Nat :=
  (mkBuckets g records).foldl (fun p kv => processBucket g records p kv.2)
    (List.range records.length)

/-- `DupeGrouper.build_groups` (finder.py lines 111-147): bucket the records
by fingerprint prefix, union all within-bucket pairs whose fingerprints match
or are within the threshold, then collect indices by union-find root and keep
only the clusters with two or more members. -/
def DupeGrouper.build_groups (g : DupeGrouper) (records : List ImageRecord) :
    List (Nat × List Nat) :=
  let buckets := mkBuckets g records
  let p1 := buckets.foldl (fun p kv => processBucket g records p kv.2)
    (List.range records.length)
  let fin := (List.range records.length).foldl
    (fun (st : List Nat × List (Nat × List Nat)) idx =>
      let fr := find st.1 idx
      (fr.1, dictInsert st.2 fr.2 idx)) (p1, [])
  fin.2.filter (fun kv => 1 < kv.2.length)

/-- The final grouping pass of `build_groups` (finder.py lines 143-146)
folded over the first `t` record indices:
`for idx in range(len(records)): groups.setdefault(find(idx), []).append(idx)`. -/
def groupPass (pS : List Nat) (t : Nat) : List Nat × List (Nat × List Nat) :=
  (List.range t).foldl
    (fun (st : List Nat × List (Nat × List Nat)) idx =>
      let fr := find st.1 idx
      (fr.1, dictInsert st.2 fr.2 idx)) (pS, [])

/-- Pure iteration of the parent array (no path compression): `iterP p k i`
follows `k` parent links from `i`.  Used only to state the specification of
the union-find, not by the embedded code. -/
def iterP (p : List Nat) : Nat → Nat → Nat
  | 0, i => i
  | k + 1, i => iterP p k (p.getD i 0)

/-- Index `i` is a union-find root of `p`. -/
def IsRoot (p : List Nat) (i : Nat) : Prop := p.getD i 0 = i

instance (p : List Nat) (i : Nat) : Decidable (IsRoot p i) :=
  inferInstanceAs (Decidable (_ = _))

/-- Semantic root of `i`: following `len(parent)` links always lands on the
root once chains are shorter than the array, which the forest invariant
guarantees. -/
def rootOf (p : List Nat) (i : Nat) : Nat := iterP p p.length i

/-- Forest invariant of the parent array: correct length, entries in range,
and every chain of parent links reaches a fixed point. -/
structure UFInv (n : Nat) (p : List Nat) : Prop where
  len : p.length = n
  bounded : ∀ i, i < n → p.getD i 0 < n
  reach : ∀ i, i < n → ∃ m, IsRoot p (iterP p m i)

/-- The bucket key of the record at index `a`. -/
def keyAt (g : DupeGrouper) (records : List ImageRecord) (a : Nat) : List Char :=
  g.bucketKey (records.getD a default)

/-- The union condition of the pair loop: identical fingerprints, or Hamming
distance within the threshold. -/
def hashClose (g : DupeGrouper) (records : List ImageRecord) (a b : Nat) : Prop :=
  (records.getD a default).hash_str = (records.getD b default).hash_str ∨
    (HashEngine.hamming_distance (records.getD a default).hash_str
      (records.getD b default).hash_str : Int) ≤ g.threshold

/-- The pairs `build_groups` passes to `union`: two in-range record indices
in the same bucket whose fingerprints are identical or within the threshold. -/
def linked (g : DupeGrouper) (records : List ImageRecord) (a b : Nat) : Prop :=
  a < records.length ∧ b < records.length ∧
  keyAt g records a = keyAt g records b ∧ hashClose g records a b

instance (g : DupeGrouper) (records : List ImageRecord) (a b : Nat) :
    Decidable (hashClose g records a b) :=
  inferInstanceAs (Decidable (_ ∨ _))

instance (g : DupeGrouper) (records : List ImageRecord) (a b : Nat) :
    Decidable (linked g records a b) :=
  inferInstanceAs (Decidable (_ ∧ _ ∧ _ ∧ _))

/-- Equivalence closure of a relation on indices: two indices are connected
when a chain of links joins them. -/
inductive Conn (r : Nat → Nat → Prop) : Nat → Nat → Prop where
  | of : ∀ a b, r a b → Conn r a b
  | refl : ∀ a, Conn r a a
  | symm : ∀ a b, Conn r a b → Conn r b a
  | trans : ∀ a b c, Conn r a b → Conn r b c → Conn r a c

/-- A record index with no other record linked to it (no other record of its
bucket has an identical or within-threshold fingerprint). -/
def isolated (g : DupeGrouper) (records : List ImageRecord) (i : Nat) : Prop :=
  ∀ j, j < records.length → j ≠ i → ¬ linked g records i j

instance (g : DupeGrouper) (records : List ImageRecord) (i : Nat) :
    Decidable (isolated g records i) :=
  inferInstanceAs
    (Decidable (∀ j, j < records.length → j ≠ i → ¬ linked g records i j))

/-- Soundness invariant carried through the union phase: indices sharing a
semantic root are connected by `linked` pairs. -/
def SoundInv (g : DupeGrouper) (records : List ImageRecord) (p : List Nat) : Prop :=
  ∀ x y, x < records.length → y < records.length →
    rootOf p x = rootOf p y → Conn (linked g records) x y

/-- Evolution relation between parent arrays along the union phase: the
forest invariant holds afterwards, classes only merge (old root equalities
survive), and the soundness invariant is preserved. -/
def Tracks (g : DupeGrouper) (records : List ImageRecord) (p p' : List Nat) : Prop :=
  UFInv records.length p' ∧
  (∀ x y, x < records.length → y < records.length →
    rootOf p x = rootOf p y → rootOf p' x = rootOf p' y) ∧
  (SoundInv g records p → SoundInv g records p')

/-- `IMAGE_EXTS` (finder.py lines 49-52). -/
def IMAGE_EXTS : List String :=
  [".jpg", ".jpeg", ".png", ".bmp", ".gif", ".tif", ".tiff",
   ".webp", ".jfif", ".pjpeg", ".pjp", ".avif", ".heic", ".heif"]

/-- Python `str.lower()` for the ASCII file names at hand. -/
def pyLower (s : String) : String := String.mk (s.toList.map Char.toLower)

/-- Python `str.strip()`: drop leading and trailing whitespace. -/
def pyStrip (s : String) : String :=
  String.mk
    (((s.toList.dropWhile Char.isWhitespace).reverse.dropWhile
      Char.isWhitespace).reverse)

/-- `Path(n).suffix`: the extension of the final component including the dot,
empty when there is no dot, the dot is leading, or the dot is last
(pathlib: `i = name.rfind('.'); name[i:] if 0 < i < len(name) - 1 else ''`). -/
def pathSuffix (name : String) : String :=
  let cs := name.toList
  match ((List.range cs.length).filter (fun t => cs.getD t ' ' = '.')).getLast? with
  | none => ""
  | some i => if 0 < i ∧ i < cs.length - 1 then String.mk (cs.drop i) else ""

/-- Everything the per-file try block of `_hash_one` extracts from the outside
world on success: stat results, post-EXIF dimensions and the computed hash. -/
structure DecodedImage where
  size_bytes : Nat
  mtime : Int
  width : Nat
  height : Nat
  hash_str : List Char
  deriving Repr, DecidableEq

namespace ImageScanner

/-- `ImageScanner._hash_one` (finder.py lines 186-204): the whole body is one
try block whose external effects (stat, open, seek, EXIF transpose, mode
conversion, hash) are modelled by the oracle `env`; any exception inside the
block is `env` returning `none`, and the except handler returns `None`. -/
def hash_one (env : String → Option DecodedImage) (path : String) :
    Option ImageRecord :=
  match env path with
  | none => none
  | some d =>
    some { path := path, size_bytes := d.size_bytes, mtime := d.mtime,
           width := d.width, height := d.height, hash_str := d.hash_str }

/-- `ImageScanner._collect_files` (finder.py lines 176-184): walk the tree
(`os.walk`, which yields nothing for a nonexistent or unreadable root and
suppresses enumeration errors), keep names whose lowercased suffix is a
recognized image extension.  The cooperative stop flag is modelled by the
value observed at the per-directory check. -/
def collect_files (stop : Bool) (walk : List (String × List String)) : List String :=
  if stop then []
  else walk.foldl (fun out e =>
    out ++ (e.2.filter (fun n => IMAGE_EXTS.contains (pyLower (pathSuffix n)))).map
      (fun n => e.1 ++ "/" ++ n)) []

/-- `ImageScanner.scan_folder` (finder.py lines 155-174): enumerate candidate
files, hash each (workers modelled sequentially; completion order is not part
of any claim), drop the per-file failures, and return the records.  There is
no validation of `root` anywhere in this function. -/
def scan_folder (stop : Bool) (env : String → Option DecodedImage)
    (fs : String → List (String × List String)) (root : String) : List ImageRecord :=
  let files := collect_files stop (fs root)
  if stop then [] else files.filterMap (hash_one env)

end ImageScanner

namespace DuplicateFinderApp

/-- The input-validation head of `on_scan` (finder.py lines 342-348) composed
with the scan it launches (line 366): an empty (stripped) folder or a path
that is not a directory is reported via `alert` and no scan starts; otherwise
the scan runs and its records are produced. -/
def on_scan_core (folder : String) (is_dir : Bool)
    (env : String → Option DecodedImage)
    (fs : String → List (String × List String)) : Except String (List ImageRecord) :=
  let f := pyStrip folder
  if f = "" then Except.error "Choose a folder first."
  else if is_dir = false then
    Except.error "Folder does not exist or is not a directory."
  else Except.ok (ImageScanner.scan_folder false env fs f)

/-- `recs[idx].group_id = gid` for one index (finder.py line 376). -/
def setGid (rs : List ImageRecord) (idx : Nat) (gid : Nat) : List ImageRecord :=
  rs.set idx { rs.getD idx default with group_id := some gid }

/-- The relabeling loop of `on_scan` (finder.py lines 373-377), generalized
over the running group id: each raw group's members receive the current id,
and the id increments per group. -/
def assignAux : List (Nat × List Nat) → List ImageRecord → Nat → List ImageRecord
  | [], rs, _ => rs
  | (_, mem) :: rest, rs, gid =>
    assignAux rest (mem.foldl (fun rs' idx => setGid rs' idx gid) rs) (gid + 1)

/-- `gid = 1; for _, members in groups_raw.items(): ...; gid += 1`
(finder.py lines 373-377). -/
def assignGroupIds (groups_raw : List (Nat × List Nat)) (recs : List ImageRecord) :
    List ImageRecord :=
  assignAux groups_raw recs 1

end DuplicateFinderApp

/-- A record whose only distinguishing feature is its fingerprint, for the
concrete evaluations below. -/
def recOf (h : List Char) : ImageRecord :=
  { path := "", size_bytes := 0, mtime := 0, width := 0, height := 0, hash_str := h }

/-! Basic list access lemmas used throughout. -/

theorem getD_set_self {α : Type} (p : List α) (j : Nat) (v d : α) (h : j < p.length) :
    (p.set j v).getD j d = v := by
  simp [List.getD_eq_getElem?_getD, List.getElem?_set_self h]

theorem getD_set_ne {α : Type} (p : List α) {i j : Nat} (v d : α) (h : j ≠ i) :
    (p.set j v).getD i d = p.getD i d := by
  simp [List.getD_eq_getElem?_getD, List.getElem?_set_ne h]

/-! Iteration of parent links: arithmetic and transfer lemmas. -/

theorem iterP_add (p : List Nat) (a b i : Nat) :
    iterP p (a + b) i = iterP p b (iterP p a i) := by
  induction a generalizing i with
  | zero => simp [iterP]
  | succ a ih =>
    have : a + 1 + b = (a + b) + 1 := by omega
    rw [this]
    show iterP p (a + b) (p.getD i 0) = iterP p b (iterP p a (p.getD i 0))
    exact ih (p.getD i 0)

theorem iterP_succ_right (p : List Nat) (k i : Nat) :
    iterP p (k + 1) i = p.getD (iterP p k i) 0 := by
  rw [iterP_add p k 1 i]
  rfl

theorem iterP_root {p : List Nat} {r : Nat} (h : IsRoot p r) (m : Nat) :
    iterP p m r = r := by
  induction m with
  | zero => rfl
  | succ m ih => rw [iterP_succ_right, ih, h]

theorem iterP_lt {n : Nat} {p : List Nat} (h : UFInv n p) {i : Nat} (hi : i < n)
    (m : Nat) : iterP p m i < n := by
  induction m generalizing i with
  | zero => exact hi
  | succ m ih => exact ih (h.bounded i hi)

theorem iterP_set_avoid {p : List Nat} {j v : Nat} :
    ∀ {k i : Nat}, (∀ t, t < k → iterP p t i ≠ j) →
      iterP (p.set j v) k i = iterP p k i := by
  intro k
  induction k with
  | zero => intro i _; rfl
  | succ k ih =>
    intro i hav
    have h0 : i ≠ j := fun h => hav 0 (Nat.succ_pos k) (by simpa [iterP] using h) |>.elim
    show iterP (p.set j v) k ((p.set j v).getD i 0) = iterP p k (p.getD i 0)
    rw [getD_set_ne p v 0 (fun h => h0 h.symm)]
    exact ih (fun t ht => hav (t + 1) (by omega))

/-! Minimal chains: the first root hit along a parent chain, distinctness of
the nodes before it, and the resulting length bound. -/

theorem reach_chain_distinct {p : List Nat} {i : Nat}
    (h : ∃ m, IsRoot p (iterP p m i)) {a b : Nat} (hab : a < b)
    (hb : b ≤ Nat.find h) : iterP p a i ≠ iterP p b i := by
  intro heq
  have hroot : IsRoot p (iterP p (a + (Nat.find h - b)) i) := by
    rw [iterP_add, heq, ← iterP_add]
    have : b + (Nat.find h - b) = Nat.find h := by omega
    rw [this]
    exact Nat.find_spec h
  exact Nat.find_min h (by omega) hroot

theorem reach_lt {n : Nat} {p : List Nat} (h : UFInv n p) {i : Nat} (hi : i < n) :
    Nat.find (h.reach i hi) < n := by
  set m := Nat.find (h.reach i hi) with hm
  by_contra hge
  push_neg at hge
  have hinj : Set.InjOn (fun t => iterP p t i) (Finset.range (m + 1)) := by
    intro a ha b hb hab
    simp only [Finset.coe_range, Set.mem_Iio] at ha hb
    by_contra hne
    rcases Nat.lt_or_ge a b with hlt | hge2
    · exact reach_chain_distinct (h.reach i hi) hlt (by omega) hab
    · have : b < a := by omega
      exact reach_chain_distinct (h.reach i hi) this (by omega) hab.symm
  have hsub : (Finset.range (m + 1)).image (fun t => iterP p t i) ⊆ Finset.range n := by
    intro x hx
    simp only [Finset.mem_image, Finset.mem_range] at hx
    rcases hx with ⟨t, _, rfl⟩
    exact Finset.mem_range.mpr (iterP_lt h hi t)
  have hcard := Finset.card_le_card hsub
  rw [Finset.card_image_of_injOn hinj, Finset.card_range, Finset.card_range] at hcard
  omega

/-! The semantic root function and its laws under the forest invariant. -/

theorem rootOf_eq_find {n : Nat} {p : List Nat} (h : UFInv n p) {i : Nat}
    (hi : i < n) : rootOf p i = iterP p (Nat.find (h.reach i hi)) i := by
  have hlt : Nat.find (h.reach i hi) < n := reach_lt h hi
  have hlen : p.length = n := h.len
  have : p.length = Nat.find (h.reach i hi) + (p.length - Nat.find (h.reach i hi)) := by
    omega
  rw [rootOf, this, iterP_add]
  exact iterP_root (Nat.find_spec (h.reach i hi)) _

theorem rootOf_isRoot {n : Nat} {p : List Nat} (h : UFInv n p) {i : Nat}
    (hi : i < n) : IsRoot p (rootOf p i) := by
  rw [rootOf_eq_find h hi]
  exact Nat.find_spec (h.reach i hi)

theorem rootOf_lt {n : Nat} {p : List Nat} (h : UFInv n p) {i : Nat} (hi : i < n) :
    rootOf p i < n := by
  rw [rootOf]
  exact iterP_lt h hi p.length

theorem rootOf_eq_of {n : Nat} {p : List Nat} (h : UFInv n p) {i r : Nat}
    (hi : i < n) {m : Nat} (hm : iterP p m i = r) (hr : IsRoot p r) :
    rootOf p i = r := by
  have hmem : IsRoot p (iterP p m i) := by rw [hm]; exact hr
  have hle : Nat.find (h.reach i hi) ≤ m := Nat.find_min' (h.reach i hi) hmem
  have : m = Nat.find (h.reach i hi) + (m - Nat.find (h.reach i hi)) := by omega
  rw [this, iterP_add, iterP_root (Nat.find_spec (h.reach i hi))] at hm
  rw [rootOf_eq_find h hi, hm]

theorem rootOf_of_isRoot {n : Nat} {p : List Nat} (h : UFInv n p) {r : Nat}
    (hr : r < n) (hroot : IsRoot p r) : rootOf p r = r :=
  rootOf_eq_of h hr (m := 0) rfl hroot

theorem rootOf_parent {n : Nat} {p : List Nat} (h : UFInv n p) {i : Nat}
    (hi : i < n) : rootOf p (p.getD i 0) = rootOf p i := by
  have hroot := rootOf_isRoot h hi
  have hfind := rootOf_eq_find h hi
  rcases Nat.eq_zero_or_pos (Nat.find (h.reach i hi)) with h0 | hpos
  · have : IsRoot p i := by
      have := Nat.find_spec (h.reach i hi)
      rw [h0] at this
      exact this
    rw [show p.getD i 0 = i from this]
  · have hchain : iterP p (Nat.find (h.reach i hi) - 1) (p.getD i 0) = rootOf p i := by
      rw [hfind]
      have : Nat.find (h.reach i hi) = 1 + (Nat.find (h.reach i hi) - 1) := by omega
      conv_rhs => rw [this]
      rw [iterP_add]
      rfl
    exact rootOf_eq_of h (h.bounded i hi) hchain hroot

theorem iterP_one (p : List Nat) (i : Nat) : iterP p 1 i = p.getD i 0 := rfl

theorem iterP_two (p : List Nat) (i : Nat) :
    iterP p 2 i = p.getD (p.getD i 0) 0 := rfl

/-- Effect of one path-halving write `parent[i] = parent[parent[i]]`: the
forest invariant is preserved, no semantic root changes, and the new
starting point `parent[parent[i]]` is strictly closer to the root than `i`
was. -/
theorem halve_spec {n : Nat} {p : List Nat} (h : UFInv n p) {i : Nat} (hi : i < n)
    (hnr : ¬ IsRoot p i) :
    UFInv n (p.set i (p.getD (p.getD i 0) 0)) ∧
    (∀ k, k < n → rootOf (p.set i (p.getD (p.getD i 0) 0)) k = rootOf p k) ∧
    ∀ m, IsRoot p (iterP p m i) →
      ∃ s, s < m ∧ IsRoot (p.set i (p.getD (p.getD i 0) 0))
        (iterP (p.set i (p.getD (p.getD i 0) 0)) s (p.getD (p.getD i 0) 0)) := by
  have hlen : p.length = n := h.len
  have hqlt : p.getD i 0 < n := h.bounded i hi
  have hgplt : p.getD (p.getD i 0) 0 < n := h.bounded _ hqlt
  have hlen' : (p.set i (p.getD (p.getD i 0) 0)).length = n := by
    rw [List.length_set]; exact hlen
  have hgetD_i : (p.set i (p.getD (p.getD i 0) 0)).getD i 0 = p.getD (p.getD i 0) 0 :=
    getD_set_self p i _ 0 (by omega)
  have himi : IsRoot p (iterP p (Nat.find (h.reach i hi)) i) :=
    Nat.find_spec (h.reach i hi)
  have hmi_pos : 1 ≤ Nat.find (h.reach i hi) := by
    rcases Nat.eq_zero_or_pos (Nat.find (h.reach i hi)) with h0 | h1
    · exfalso; apply hnr; rw [h0] at himi; exact himi
    · exact h1
  have hRi_ne : iterP p (Nat.find (h.reach i hi)) i ≠ i := by
    intro heq
    exact reach_chain_distinct (h.reach i hi) hmi_pos (le_refl _)
      (by simpa [iterP] using heq.symm)
  have hRi_root' : IsRoot (p.set i (p.getD (p.getD i 0) 0))
      (iterP p (Nat.find (h.reach i hi)) i) := by
    show (p.set i _).getD _ 0 = _
    rw [getD_set_ne p _ 0 (fun heq => hRi_ne heq.symm)]
    exact himi
  have hGp : ∃ s, s < Nat.find (h.reach i hi) ∧
      iterP (p.set i (p.getD (p.getD i 0) 0)) s (p.getD (p.getD i 0) 0) =
        iterP p (Nat.find (h.reach i hi)) i := by
    rcases Nat.lt_or_ge (Nat.find (h.reach i hi)) 2 with hlt2 | hge2
    · -- the parent of i is already a root
      have hmi1 : Nat.find (h.reach i hi) = 1 := by omega
      have hqroot : IsRoot p (p.getD i 0) := by
        have := himi
        rw [hmi1, iterP_one] at this
        exact this
      refine ⟨0, by omega, ?_⟩
      rw [hmi1, iterP_one]
      show p.getD (p.getD i 0) 0 = p.getD i 0
      exact hqroot
    · -- jump two steps along the chain of i
      have hav : ∀ t, t < Nat.find (h.reach i hi) - 2 →
          iterP p t (p.getD (p.getD i 0) 0) ≠ i := by
        intro t ht heq
        have h2t : iterP p (2 + t) i = i := by
          rw [iterP_add, iterP_two]; exact heq
        exact reach_chain_distinct (h.reach i hi) (a := 0) (b := 2 + t)
          (by omega) (by omega) (by simpa [iterP] using h2t.symm)
      refine ⟨Nat.find (h.reach i hi) - 2, by omega, ?_⟩
      rw [iterP_set_avoid hav]
      have : iterP p (Nat.find (h.reach i hi) - 2) (p.getD (p.getD i 0) 0) =
          iterP p (2 + (Nat.find (h.reach i hi) - 2)) i := by
        rw [iterP_add, iterP_two]
      rw [this]
      congr 1
      omega
  have hMaster : ∀ k, k < n →
      ∃ m', iterP (p.set i (p.getD (p.getD i 0) 0)) m' k = rootOf p k ∧
        IsRoot (p.set i (p.getD (p.getD i 0) 0))
          (iterP (p.set i (p.getD (p.getD i 0) 0)) m' k) := by
    intro k hk
    have hRk : rootOf p k = iterP p (Nat.find (h.reach k hk)) k := rootOf_eq_find h hk
    by_cases hhit : ∃ t, t ≤ Nat.find (h.reach k hk) ∧ iterP p t k = i
    · obtain ⟨t, htle, hti⟩ := hhit
      have hex : ∃ t, iterP p t k = i := ⟨t, hti⟩
      have ht0 : iterP p (Nat.find hex) k = i := Nat.find_spec hex
      have hav : ∀ s, s < Nat.find hex → iterP p s k ≠ i := fun s hs => Nat.find_min hex hs
      obtain ⟨s, hslt, hsval⟩ := hGp
      have hchain : iterP (p.set i (p.getD (p.getD i 0) 0)) (Nat.find hex + (1 + s)) k =
          iterP p (Nat.find (h.reach i hi)) i := by
        rw [iterP_add, iterP_set_avoid hav, ht0, iterP_add, iterP_one, hgetD_i, hsval]
      have hrootk : rootOf p k = iterP p (Nat.find (h.reach i hi)) i := by
        have hcomp : iterP p (t + Nat.find (h.reach i hi)) k =
            iterP p (Nat.find (h.reach i hi)) i := by
          rw [iterP_add, hti]
        exact rootOf_eq_of h hk hcomp himi
      refine ⟨Nat.find hex + (1 + s), ?_, ?_⟩
      · rw [hchain, hrootk]
      · rw [hchain]; exact hRi_root'
    · push_neg at hhit
      have hav : ∀ s, s < Nat.find (h.reach k hk) → iterP p s k ≠ i := by
        intro s hs
        exact hhit s (by omega)
      have hRk_ne : iterP p (Nat.find (h.reach k hk)) k ≠ i :=
        hhit (Nat.find (h.reach k hk)) (le_refl _)
      have htrans : iterP (p.set i (p.getD (p.getD i 0) 0)) (Nat.find (h.reach k hk)) k =
          iterP p (Nat.find (h.reach k hk)) k := iterP_set_avoid hav
      refine ⟨Nat.find (h.reach k hk), ?_, ?_⟩
      · rw [htrans, hRk]
      · rw [htrans]
        show (p.set i _).getD _ 0 = _
        rw [getD_set_ne p _ 0 (fun heq => hRk_ne heq.symm)]
        exact Nat.find_spec (h.reach k hk)
  have hInv' : UFInv n (p.set i (p.getD (p.getD i 0) 0)) := by
    refine ⟨hlen', ?_, ?_⟩
    · intro j hj
      by_cases hij : j = i
      · subst hij; rw [hgetD_i]; exact hgplt
      · rw [getD_set_ne p _ 0 (fun heq => hij heq.symm)]
        exact h.bounded j hj
    · intro k hk
      obtain ⟨m', _, hroot⟩ := hMaster k hk
      exact ⟨m', hroot⟩
  refine ⟨hInv', ?_, ?_⟩
  · intro k hk
    obtain ⟨m', hval, hroot⟩ := hMaster k hk
    exact rootOf_eq_of hInv' hk hval (by rw [← hval]; exact hroot)
  · intro m hm
    have hmile : Nat.find (h.reach i hi) ≤ m := Nat.find_min' (h.reach i hi) hm
    obtain ⟨s, hslt, hsval⟩ := hGp
    refine ⟨s, by omega, ?_⟩
    rw [hsval]
    exact hRi_root'

/-- Effect of `parent[rb] = ra` on two distinct roots: the forest invariant
is preserved and the class of `rb` is absorbed into the class of `ra`. -/
theorem link_spec {n : Nat} {p : List Nat} (h : UFInv n p) {ra rb : Nat}
    (hra : ra < n) (hrb : rb < n) (hroota : IsRoot p ra) (hrootb : IsRoot p rb)
    (hne : ra ≠ rb) :
    UFInv n (p.set rb ra) ∧
    ∀ k, k < n → rootOf (p.set rb ra) k =
      if rootOf p k = rb then ra else rootOf p k := by
  have hlen : p.length = n := h.len
  have hlen' : (p.set rb ra).length = n := by rw [List.length_set]; exact hlen
  have hgetD_rb : (p.set rb ra).getD rb 0 = ra := getD_set_self p rb ra 0 (by omega)
  have hra_root' : IsRoot (p.set rb ra) ra := by
    show (p.set rb ra).getD ra 0 = ra
    rw [getD_set_ne p ra 0 hne.symm]
    exact hroota
  have hMaster : ∀ k, k < n →
      ∃ m', iterP (p.set rb ra) m' k = (if rootOf p k = rb then ra else rootOf p k) ∧
        IsRoot (p.set rb ra) (iterP (p.set rb ra) m' k) := by
    intro k hk
    have hRk : rootOf p k = iterP p (Nat.find (h.reach k hk)) k := rootOf_eq_find h hk
    have hav : ∀ s, s < Nat.find (h.reach k hk) → iterP p s k ≠ rb := by
      intro s hs heq
      have : IsRoot p (iterP p s k) := by rw [heq]; exact hrootb
      exact Nat.find_min (h.reach k hk) hs this
    have htrans : iterP (p.set rb ra) (Nat.find (h.reach k hk)) k =
        iterP p (Nat.find (h.reach k hk)) k := iterP_set_avoid hav
    by_cases hcase : rootOf p k = rb
    · have hstep : iterP (p.set rb ra) (Nat.find (h.reach k hk) + 1) k = ra := by
        rw [iterP_succ_right, htrans, ← hRk, hcase, hgetD_rb]
      refine ⟨Nat.find (h.reach k hk) + 1, ?_, ?_⟩
      · rw [hstep, if_pos hcase]
      · rw [hstep]
        exact hra_root'
    · have hRk_ne : iterP p (Nat.find (h.reach k hk)) k ≠ rb := by
        rw [← hRk]; exact hcase
      refine ⟨Nat.find (h.reach k hk), ?_, ?_⟩
      · rw [htrans, ← hRk, if_neg hcase]
      · rw [htrans]
        show (p.set rb ra).getD _ 0 = _
        rw [getD_set_ne p ra 0 (fun heq => hRk_ne heq.symm)]
        exact Nat.find_spec (h.reach k hk)
  have hInv' : UFInv n (p.set rb ra) := by
    refine ⟨hlen', ?_, ?_⟩
    · intro j hj
      by_cases hij : j = rb
      · subst hij; rw [hgetD_rb]; exact hra
      · rw [getD_set_ne p ra 0 (fun heq => hij heq.symm)]
        exact h.bounded j hj
    · intro k hk
      obtain ⟨m', _, hroot⟩ := hMaster k hk
      exact ⟨m', hroot⟩
  refine ⟨hInv', ?_⟩
  intro k hk
  obtain ⟨m', hval, hroot⟩ := hMaster k hk
  exact rootOf_eq_of hInv' hk hval (by rw [← hval]; exact hroot)

/-- The while loop of `find` returns the semantic root, keeps the forest
invariant, and changes no semantic root, provided the fuel covers the
distance from `i` to its root. -/
theorem findAux_spec {n : Nat} :
    ∀ (fuel : Nat) (p : List Nat) (i : Nat), UFInv n p → i < n →
      (∃ m, m ≤ fuel ∧ IsRoot p (iterP p m i)) →
      UFInv n (findAux fuel p i).1 ∧ (findAux fuel p i).2 = rootOf p i ∧
        ∀ k, k < n → rootOf (findAux fuel p i).1 k = rootOf p k := by
  intro fuel
  induction fuel with
  | zero =>
    intro p i h hi hm
    obtain ⟨m, hm0, hroot⟩ := hm
    have : m = 0 := by omega
    subst this
    have hroot_i : IsRoot p i := hroot
    have : rootOf p i = i := rootOf_of_isRoot h hi hroot_i
    exact ⟨h, by rw [findAux, this], fun k _ => rfl⟩
  | succ fuel ih =>
    intro p i h hi hm
    by_cases hroot_i : p.getD i 0 = i
    · have : findAux (fuel + 1) p i = (p, i) := by rw [findAux, if_pos hroot_i]
      rw [this]
      have : rootOf p i = i := rootOf_of_isRoot h hi hroot_i
      exact ⟨h, by rw [this], fun k _ => rfl⟩
    · have hstep : findAux (fuel + 1) p i =
          findAux fuel (p.set i (p.getD (p.getD i 0) 0)) (p.getD (p.getD i 0) 0) := by
        rw [findAux, if_neg hroot_i]
      obtain ⟨hInv', hpres, hclose⟩ := halve_spec h hi hroot_i
      obtain ⟨m, hmle, hmroot⟩ := hm
      obtain ⟨s, hslt, hsroot⟩ := hclose m hmroot
      have hgplt : p.getD (p.getD i 0) 0 < n := h.bounded _ (h.bounded i hi)
      obtain ⟨hInv'', hval, hpres'⟩ :=
        ih (p.set i (p.getD (p.getD i 0) 0)) (p.getD (p.getD i 0) 0) hInv' hgplt
          ⟨s, by omega, hsroot⟩
      rw [hstep]
      refine ⟨hInv'', ?_, ?_⟩
      · rw [hval, hpres _ hgplt, rootOf_parent h (h.bounded i hi), rootOf_parent h hi]
      · intro k hk
        rw [hpres' k hk, hpres k hk]

/-- Specification of `find`: with the forest invariant, `find p i` returns
the semantic root of `i` and a rerouted parent array with the same semantic
roots everywhere. -/
theorem find_spec {n : Nat} {p : List Nat} (h : UFInv n p) {i : Nat} (hi : i < n) :
    UFInv n (find p i).1 ∧ (find p i).2 = rootOf p i ∧
      ∀ k, k < n → rootOf (find p i).1 k = rootOf p k := by
  have hfuel : ∃ m, m ≤ p.length ∧ IsRoot p (iterP p m i) := by
    refine ⟨Nat.find (h.reach i hi), ?_, Nat.find_spec (h.reach i hi)⟩
    have hlen : p.length = n := h.len
    have := reach_lt h hi
    omega
  exact findAux_spec p.length p i h hi hfuel

/-- Specification of `union`: the forest invariant is preserved, and the
semantic root map afterwards sends the class of `b` onto the class of `a`
and leaves every other class alone. -/
theorem union_spec {n : Nat} {p : List Nat} (h : UFInv n p) {a b : Nat}
    (ha : a < n) (hb : b < n) :
    UFInv n (union p a b) ∧
    ∀ k, k < n → rootOf (union p a b) k =
      if rootOf p k = rootOf p b then rootOf p a else rootOf p k := by
  obtain ⟨hInv1, hval1, hpres1⟩ := find_spec h ha
  obtain ⟨hInv2, hval2, hpres2⟩ := find_spec hInv1 hb
  have hra : (find p a).2 = rootOf p a := hval1
  have hrb : (find (find p a).1 b).2 = rootOf p b := by
    rw [hval2, hpres1 b hb]
  have hpres12 : ∀ k, k < n → rootOf (find (find p a).1 b).1 k = rootOf p k := by
    intro k hk
    rw [hpres2 k hk, hpres1 k hk]
  by_cases hcase : (find p a).2 ≠ (find (find p a).1 b).2
  · have hu : union p a b = (find (find p a).1 b).1.set (find (find p a).1 b).2 (find p a).2 := by
      rw [union, if_pos hcase]
    have hne : rootOf p a ≠ rootOf p b := by
      rw [← hra, ← hrb]; exact hcase
    have hroota : IsRoot (find (find p a).1 b).1 (rootOf p a) := by
      have := rootOf_isRoot hInv2 (show a < n from ha)
      rw [hpres12 a ha] at this
      exact this
    have hrootb : IsRoot (find (find p a).1 b).1 (rootOf p b) := by
      have := rootOf_isRoot hInv2 (show b < n from hb)
      rw [hpres12 b hb] at this
      exact this
    have hralt : rootOf p a < n := rootOf_lt h ha
    have hrblt : rootOf p b < n := rootOf_lt h hb
    obtain ⟨hInv3, hpres3⟩ := link_spec hInv2 hralt hrblt hroota hrootb hne
    rw [hu, hra, hrb] at *
    constructor
    · exact hInv3
    · intro k hk
      rw [hpres3 k hk, hpres12 k hk]
  · push_neg at hcase
    have hu : union p a b = (find (find p a).1 b).1 := by
      rw [union, if_neg (by simpa using hcase)]
    have heq : rootOf p a = rootOf p b := by rw [← hra, ← hrb, hcase]
    rw [hu]
    refine ⟨hInv2, ?_⟩
    intro k hk
    rw [hpres12 k hk]
    by_cases hck : rootOf p k = rootOf p b
    · rw [if_pos hck, hck, heq]
    · rw [if_neg hck]

/-- After `union p a b`, the two arguments have the same semantic root. -/
theorem union_joins {n : Nat} {p : List Nat} (h : UFInv n p) {a b : Nat}
    (ha : a < n) (hb : b < n) :
    rootOf (union p a b) a = rootOf (union p a b) b := by
  obtain ⟨_, hroot⟩ := union_spec h ha hb
  rw [hroot a ha, hroot b hb, if_pos rfl]
  by_cases hab : rootOf p a = rootOf p b
  · rw [if_pos hab]
  · rw [if_neg hab]

/-! Symmetry of the Hamming distance and of the union condition. -/

theorem countP_zip_ne_symm :
    ∀ (l1 l2 : List Bool),
      (l1.zip l2).countP (fun bb => bb.1 != bb.2) =
        (l2.zip l1).countP (fun bb => bb.1 != bb.2) := by
  intro l1
  induction l1 with
  | nil => intro l2; cases l2 <;> rfl
  | cons a l1 ih =>
    intro l2
    cases l2 with
    | nil => rfl
    | cons b l2 =>
      simp only [List.zip_cons_cons, List.countP_cons]
      rw [ih l2]
      congr 1
      cases a <;> cases b <;> rfl

theorem hamming_symm (h1 h2 : List Char) :
    HashEngine.hamming_distance h1 h2 = HashEngine.hamming_distance h2 h1 :=
  countP_zip_ne_symm (hexToBits h1) (hexToBits h2)

theorem hashClose_symm {g : DupeGrouper} {records : List ImageRecord} {a b : Nat}
    (h : hashClose g records a b) : hashClose g records b a := by
  rcases h with h | h
  · exact Or.inl h.symm
  · right
    rw [hamming_symm]
    exact h

theorem linked_symm {g : DupeGrouper} {records : List ImageRecord} {a b : Nat}
    (h : linked g records a b) : linked g records b a :=
  ⟨h.2.1, h.1, h.2.2.1.symm, hashClose_symm h.2.2.2⟩

/-! Unfolding equations for the pair-loop body. -/

theorem maybeUnion_eq_union {g : DupeGrouper} {records : List ImageRecord}
    {a b : Nat} (p : List Nat) (h : hashClose g records a b) :
    maybeUnion g records p a b = union p a b := by
  rcases h with heq | hle
  · rw [maybeUnion, if_pos heq]
  · rw [maybeUnion]
    by_cases heq : (records.getD a default).hash_str = (records.getD b default).hash_str
    · rw [if_pos heq]
    · rw [if_neg heq, if_pos hle]

theorem maybeUnion_eq_self {g : DupeGrouper} {records : List ImageRecord}
    {a b : Nat} (p : List Nat) (h : ¬ hashClose g records a b) :
    maybeUnion g records p a b = p := by
  rw [maybeUnion,
    if_neg (fun heq => h (Or.inl heq)),
    if_neg (fun hle => h (Or.inr hle))]

/-! The evolution relation: reflexivity, transitivity, and the effect of the
primitive steps. -/

theorem tracks_refl {g : DupeGrouper} {records : List ImageRecord} {p : List Nat}
    (h : UFInv records.length p) : Tracks g records p p :=
  ⟨h, fun _ _ _ _ hxy => hxy, fun hs => hs⟩

theorem tracks_trans {g : DupeGrouper} {records : List ImageRecord}
    {p p' p'' : List Nat} (h1 : Tracks g records p p') (h2 : Tracks g records p' p'') :
    Tracks g records p p'' :=
  ⟨h2.1, fun x y hx hy hxy => h2.2.1 x y hx hy (h1.2.1 x y hx hy hxy),
    fun hs => h2.2.2 (h1.2.2 hs)⟩

theorem tracks_of_rootEq {g : DupeGrouper} {records : List ImageRecord}
    {p p' : List Nat} (h' : UFInv records.length p')
    (heq : ∀ k, k < records.length → rootOf p' k = rootOf p k) :
    Tracks g records p p' := by
  refine ⟨h', ?_, ?_⟩
  · intro x y hx hy hxy
    rw [heq x hx, heq y hy]
    exact hxy
  · intro hs x y hx hy hxy
    apply hs x y hx hy
    rw [← heq x hx, ← heq y hy]
    exact hxy

theorem union_tracks {g : DupeGrouper} {records : List ImageRecord} {p : List Nat}
    (h : UFInv records.length p) {a b : Nat} (hl : linked g records a b) :
    Tracks g records p (union p a b) ∧
      rootOf (union p a b) a = rootOf (union p a b) b := by
  have ha := hl.1
  have hb := hl.2.1
  obtain ⟨hInv', hroot⟩ := union_spec h ha hb
  refine ⟨⟨hInv', ?_, ?_⟩, union_joins h ha hb⟩
  · intro x y hx hy hxy
    rw [hroot x hx, hroot y hy, hxy]
  · intro hs x y hx hy hxy
    rw [hroot x hx, hroot y hy] at hxy
    by_cases hxb : rootOf p x = rootOf p b <;> by_cases hyb : rootOf p y = rootOf p b
    · exact hs x y hx hy (by rw [hxb, hyb])
    · rw [if_pos hxb, if_neg hyb] at hxy
      exact Conn.trans x b y (hs x b hx hb hxb)
        (Conn.trans b a y (Conn.symm a b (Conn.of a b hl))
          (hs a y ha hy hxy))
    · rw [if_neg hxb, if_pos hyb] at hxy
      exact Conn.trans x a y (hs x a hx ha hxy)
        (Conn.trans a b y (Conn.of a b hl) (hs b y hb hy hyb.symm))
    · rw [if_neg hxb, if_neg hyb] at hxy
      exact hs x y hx hy hxy

theorem maybeUnion_tracks {g : DupeGrouper} {records : List ImageRecord}
    {p : List Nat} (h : UFInv records.length p) {a b : Nat}
    (ha : a < records.length) (hb : b < records.length)
    (hk : keyAt g records a = keyAt g records b) :
    Tracks g records p (maybeUnion g records p a b) ∧
      (hashClose g records a b →
        rootOf (maybeUnion g records p a b) a = rootOf (maybeUnion g records p a b) b) := by
  by_cases hc : hashClose g records a b
  · rw [maybeUnion_eq_union p hc]
    obtain ⟨ht, hj⟩ := union_tracks h ⟨ha, hb, hk, hc⟩
    exact ⟨ht, fun _ => hj⟩
  · rw [maybeUnion_eq_self p hc]
    exact ⟨tracks_refl h, fun hcc => (hc hcc).elim⟩

/-- The inner `for j in range(i+1, n)` loop: evolution plus the fact that
every compared partner within the union condition ends up in the class of
`a`. -/
theorem innerFold_tracks {g : DupeGrouper} {records : List ImageRecord}
    {a : Nat} (ha : a < records.length) {k : List Char}
    (hak : keyAt g records a = k) :
    ∀ (rest : List Nat) (p : List Nat), UFInv records.length p →
      (∀ b ∈ rest, b < records.length ∧ keyAt g records b = k) →
      Tracks g records p (rest.foldl (fun p' b => maybeUnion g records p' a b) p) ∧
      ∀ b ∈ rest, hashClose g records a b →
        rootOf (rest.foldl (fun p' b => maybeUnion g records p' a b) p) a =
          rootOf (rest.foldl (fun p' b => maybeUnion g records p' a b) p) b := by
  intro rest
  induction rest with
  | nil =>
    intro p h _
    exact ⟨tracks_refl h, fun b hb => (List.not_mem_nil b hb).elim⟩
  | cons b0 rest ih =>
    intro p h hmem
    have hb0 := hmem b0 (List.mem_cons_self b0 rest)
    have hkey : keyAt g records a = keyAt g records b0 := by rw [hak, hb0.2]
    obtain ⟨ht0, hj0⟩ := maybeUnion_tracks h ha hb0.1 hkey
    have hmem' : ∀ b ∈ rest, b < records.length ∧ keyAt g records b = k :=
      fun b hb => hmem b (List.mem_cons_of_mem b0 hb)
    obtain ⟨ht1, hj1⟩ := ih (maybeUnion g records p a b0) ht0.1 hmem'
    have hfold : (b0 :: rest).foldl (fun p' b => maybeUnion g records p' a b) p =
        rest.foldl (fun p' b => maybeUnion g records p' a b)
          (maybeUnion g records p a b0) := rfl
    rw [hfold]
    refine ⟨tracks_trans ht0 ht1, ?_⟩
    intro b hb hc
    rcases List.mem_cons.mp hb with rfl | hbrest
    · exact ht1.2.1 a b ha hb0.1 (hj0 hc)
    · exact hj1 b hbrest hc

/-- The per-bucket double loop: evolution plus joining of every
within-condition pair of the bucket. -/
theorem processBucket_tracks {g : DupeGrouper} {records : List ImageRecord} :
    ∀ (idxs : List Nat) (p : List Nat), UFInv records.length p →
      ∀ {k : List Char}, (∀ x ∈ idxs, x < records.length ∧ keyAt g records x = k) →
      Tracks g records p (processBucket g records p idxs) ∧
      ∀ a ∈ idxs, ∀ b ∈ idxs, hashClose g records a b →
        rootOf (processBucket g records p idxs) a =
          rootOf (processBucket g records p idxs) b := by
  intro idxs
  induction idxs with
  | nil =>
    intro p h k _
    exact ⟨tracks_refl h, fun a ha => (List.not_mem_nil a ha).elim⟩
  | cons a rest ih =>
    intro p h k hmem
    have ha := hmem a (List.mem_cons_self a rest)
    have hmem' : ∀ x ∈ rest, x < records.length ∧ keyAt g records x = k :=
      fun x hx => hmem x (List.mem_cons_of_mem a hx)
    obtain ⟨ht1, hj1⟩ := innerFold_tracks ha.1 ha.2 rest p h hmem'
    obtain ⟨ht2, hj2⟩ :=
      ih (rest.foldl (fun p' b => maybeUnion g records p' a b) p) ht1.1 hmem'
    have hfold : processBucket g records p (a :: rest) =
        processBucket g records
          (rest.foldl (fun p' b => maybeUnion g records p' a b) p) rest := rfl
    rw [hfold]
    refine ⟨tracks_trans ht1 ht2, ?_⟩
    intro x hx y hy hc
    rcases List.mem_cons.mp hx with rfl | hxr <;> rcases List.mem_cons.mp hy with h' | hyr
    · rw [h']
    · exact ht2.2.1 x y ha.1 (hmem' y hyr).1 (hj1 y hyr hc)
    · rw [h'] at hc ⊢
      exact (ht2.2.1 a x ha.1 (hmem' x hxr).1 (hj1 x hxr (hashClose_symm hc))).symm
    · exact hj2 x hxr y hyr hc

/-- The loop over all buckets (finder.py lines 127-141): evolution plus
joining of every within-condition pair sharing a bucket. -/
theorem bucketFold_tracks {g : DupeGrouper} {records : List ImageRecord} :
    ∀ (buckets : List (List Char × List Nat)) (p : List Nat),
      UFInv records.length p →
      (∀ e ∈ buckets, ∀ x ∈ e.2, x < records.length ∧ keyAt g records x = e.1) →
      Tracks g records p
        (buckets.foldl (fun q kv => processBucket g records q kv.2) p) ∧
      ∀ e ∈ buckets, ∀ a ∈ e.2, ∀ b ∈ e.2, hashClose g records a b →
        rootOf (buckets.foldl (fun q kv => processBucket g records q kv.2) p) a =
          rootOf (buckets.foldl (fun q kv => processBucket g records q kv.2) p) b := by
  intro buckets
  induction buckets with
  | nil =>
    intro p h _
    exact ⟨tracks_refl h, fun e he => (List.not_mem_nil e he).elim⟩
  | cons e0 rest ih =>
    intro p h hmem
    have he0 := hmem e0 (List.mem_cons_self e0 rest)
    have hmem' : ∀ e ∈ rest, ∀ x ∈ e.2, x < records.length ∧ keyAt g records x = e.1 :=
      fun e he => hmem e (List.mem_cons_of_mem e0 he)
    obtain ⟨ht1, hj1⟩ := processBucket_tracks e0.2 p h he0
    obtain ⟨ht2, hj2⟩ := ih (processBucket g records p e0.2) ht1.1 hmem'
    have hfold : (e0 :: rest).foldl (fun q kv => processBucket g records q kv.2) p =
        rest.foldl (fun q kv => processBucket g records q kv.2)
          (processBucket g records p e0.2) := rfl
    rw [hfold]
    refine ⟨tracks_trans ht1 ht2, ?_⟩
    intro e he a ham b hbm hc
    rcases List.mem_cons.mp he with rfl | her
    · exact ht2.2.1 a b (he0 a ham).1 (he0 b hbm).1 (hj1 a ham b hbm hc)
    · exact hj2 e her a ham b hbm hc

/-! Association-list lemmas for the insertion-ordered dict model. -/

theorem dictInsert_keys {κ : Type} [DecidableEq κ] :
    ∀ (bs : List (κ × List Nat)) (k : κ) (i : Nat),
      (dictInsert bs k i).map Prod.fst =
        if k ∈ bs.map Prod.fst then bs.map Prod.fst else bs.map Prod.fst ++ [k] := by
  intro bs
  induction bs with
  | nil => intro k i; simp [dictInsert]
  | cons e rest ih =>
    intro k i
    obtain ⟨k', v⟩ := e
    by_cases hek : k' = k
    · subst hek
      simp [dictInsert]
    · have hne : k ≠ k' := fun h => hek h.symm
      rw [show dictInsert ((k', v) :: rest) k i = (k', v) :: dictInsert rest k i from by
        rw [dictInsert, if_neg hek]]
      simp only [List.map_cons, ih, List.mem_cons]
      by_cases hmem : k ∈ rest.map Prod.fst
      · rw [if_pos hmem, if_pos (Or.inr hmem)]
      · rw [if_neg hmem, if_neg (by
          intro hor
          rcases hor with h' | h'
          · exact hne h'
          · exact hmem h')]
        simp

theorem dictInsert_nodupKeys {κ : Type} [DecidableEq κ]
    {bs : List (κ × List Nat)} (h : (bs.map Prod.fst).Nodup) (k : κ) (i : Nat) :
    ((dictInsert bs k i).map Prod.fst).Nodup := by
  rw [dictInsert_keys]
  by_cases hmem : k ∈ bs.map Prod.fst
  · rw [if_pos hmem]; exact h
  · rw [if_neg hmem]
    refine List.Nodup.append h (List.nodup_singleton k) ?_
    intro x hx hxk
    rw [List.mem_singleton] at hxk
    subst hxk
    exact hmem hx

theorem dictInsert_mem_self {κ : Type} [DecidableEq κ] :
    ∀ (bs : List (κ × List Nat)) (k : κ) (i : Nat),
      ∃ e ∈ dictInsert bs k i, e.1 = k ∧ i ∈ e.2 := by
  intro bs
  induction bs with
  | nil => intro k i; exact ⟨(k, [i]), by simp [dictInsert]⟩
  | cons e rest ih =>
    intro k i
    obtain ⟨k', v⟩ := e
    by_cases hek : k' = k
    · refine ⟨(k', v ++ [i]), ?_, hek, by simp⟩
      rw [dictInsert, if_pos hek]
      exact List.mem_cons_self _ _
    · obtain ⟨e', he', hk', hi'⟩ := ih k i
      refine ⟨e', ?_, hk', hi'⟩
      rw [dictInsert, if_neg hek]
      exact List.mem_cons_of_mem _ he'

theorem dictInsert_mem_mono {κ : Type} [DecidableEq κ] :
    ∀ (bs : List (κ × List Nat)) (k : κ) (i : Nat) (e : κ × List Nat), e ∈ bs →
      ∃ e' ∈ dictInsert bs k i, e'.1 = e.1 ∧ ∀ j ∈ e.2, j ∈ e'.2 := by
  intro bs
  induction bs with
  | nil => intro k i e he; exact (List.not_mem_nil e he).elim
  | cons e0 rest ih =>
    intro k i e he
    obtain ⟨k', v⟩ := e0
    by_cases hek : k' = k
    · rw [show dictInsert ((k', v) :: rest) k i = (k', v ++ [i]) :: rest from by
        rw [dictInsert, if_pos hek]]
      rcases List.mem_cons.mp he with rfl | her
      · exact ⟨(k', v ++ [i]), List.mem_cons_self _ _, rfl,
          fun j hj => List.mem_append_left _ hj⟩
      · exact ⟨e, List.mem_cons_of_mem _ her, rfl, fun j hj => hj⟩
    · rw [show dictInsert ((k', v) :: rest) k i = (k', v) :: dictInsert rest k i from by
        rw [dictInsert, if_neg hek]]
      rcases List.mem_cons.mp he with rfl | her
      · exact ⟨(k', v), List.mem_cons_self _ _, rfl, fun j hj => hj⟩
      · obtain ⟨e', he', hk', hj'⟩ := ih k i e her
        exact ⟨e', List.mem_cons_of_mem _ he', hk', hj'⟩

theorem dictInsert_forall {κ : Type} [DecidableEq κ]
    (P : κ → Nat → Prop) :
    ∀ {bs : List (κ × List Nat)} {k : κ} {i : Nat},
      (∀ e ∈ bs, ∀ j ∈ e.2, P e.1 j) → P k i →
      ∀ e ∈ dictInsert bs k i, ∀ j ∈ e.2, P e.1 j := by
  intro bs
  induction bs with
  | nil =>
    intro k i _ hki e he j hj
    simp only [dictInsert, List.mem_singleton] at he
    subst he
    simp only [List.mem_singleton] at hj
    subst hj
    exact hki
  | cons e0 rest ih =>
    intro k i hall hki e he j hj
    obtain ⟨k', v⟩ := e0
    by_cases hek : k' = k
    · rw [show dictInsert ((k', v) :: rest) k i = (k', v ++ [i]) :: rest from by
        rw [dictInsert, if_pos hek]] at he
      rcases List.mem_cons.mp he with rfl | her
      · rcases List.mem_append.mp hj with hjv | hji
        · exact hall (k', v) (List.mem_cons_self _ _) j hjv
        · simp only [List.mem_singleton] at hji
          subst hji
          rw [hek]
          exact hki
      · exact hall e (List.mem_cons_of_mem _ her) j hj
    · rw [show dictInsert ((k', v) :: rest) k i = (k', v) :: dictInsert rest k i from by
        rw [dictInsert, if_neg hek]] at he
      rcases List.mem_cons.mp he with rfl | her
      · exact hall (k', v) (List.mem_cons_self _ _) j hj
      · exact ih (fun e' he' => hall e' (List.mem_cons_of_mem _ he')) hki e her j hj

theorem nodupKeys_entry_eq {κ : Type} [DecidableEq κ]
    {bs : List (κ × List Nat)} (h : (bs.map Prod.fst).Nodup)
    {e1 e2 : κ × List Nat} (h1 : e1 ∈ bs) (h2 : e2 ∈ bs) (hk : e1.1 = e2.1) :
    e1 = e2 := by
  induction bs with
  | nil => exact (List.not_mem_nil e1 h1).elim
  | cons e0 rest ih =>
    simp only [List.map_cons, List.nodup_cons] at h
    rcases List.mem_cons.mp h1 with rfl | h1r <;> rcases List.mem_cons.mp h2 with h2e | h2r
    · rw [h2e]
    · exact (h.1 (by rw [hk]; exact List.mem_map_of_mem Prod.fst h2r)).elim
    · subst h2e
      exact (h.1 (by rw [← hk]; exact List.mem_map_of_mem Prod.fst h1r)).elim
    · exact ih h.2 h1r h2r

/-! Characterization of the bucket table built at finder.py lines 112-114. -/

theorem mkBucketsAux_spec {g : DupeGrouper} (records : List ImageRecord) :
    ∀ (rs : List ImageRecord) (i : Nat) (bs : List (List Char × List Nat)),
      rs = records.drop i →
      ((bs.map Prod.fst).Nodup ∧
        (∀ e ∈ bs, ∀ j ∈ e.2, j < records.length ∧ keyAt g records j = e.1) ∧
        (∀ j, j < i → ∃ e ∈ bs, e.1 = keyAt g records j ∧ j ∈ e.2)) →
      (((mkBucketsAux g rs i bs).map Prod.fst).Nodup ∧
        (∀ e ∈ mkBucketsAux g rs i bs, ∀ j ∈ e.2,
          j < records.length ∧ keyAt g records j = e.1) ∧
        (∀ j, j < records.length →
          ∃ e ∈ mkBucketsAux g rs i bs, e.1 = keyAt g records j ∧ j ∈ e.2)) := by
  intro rs
  induction rs with
  | nil =>
    intro i bs hdrop hinv
    refine ⟨hinv.1, hinv.2.1, ?_⟩
    intro j hj
    apply hinv.2.2 j
    have : records.length ≤ i := by
      by_contra hlt
      push_neg at hlt
      have := List.drop_eq_getElem_cons hlt
      rw [← hdrop] at this
      exact List.cons_ne_nil _ _ this.symm
    omega
  | cons r rs ih =>
    intro i bs hdrop hinv
    have hilt : i < records.length := by
      by_contra hge
      push_neg at hge
      have : records.drop i = [] := List.drop_eq_nil_of_le hge
      rw [← hdrop] at this
      exact List.cons_ne_nil _ _ this
    have hhead : records.getD i default = r := by
      have h1 : (records.drop i).head? = some r := by rw [← hdrop]; rfl
      rw [List.head?_drop] at h1
      rw [List.getD_eq_getElem?_getD, h1]
      rfl
    have htail : rs = records.drop (i + 1) := by
      have : (records.drop i).tail = rs := by rw [← hdrop]; rfl
      rw [List.tail_drop] at this
      exact this.symm
    have hkey : g.bucketKey r = keyAt g records i := by
      rw [keyAt, hhead]
    show (((mkBucketsAux g rs (i + 1) (dictInsert bs (g.bucketKey r) i)).map
        Prod.fst).Nodup ∧ _ ∧ _)
    apply ih (i + 1) (dictInsert bs (g.bucketKey r) i) htail
    refine ⟨dictInsert_nodupKeys hinv.1 _ _, ?_, ?_⟩
    · exact dictInsert_forall
        (fun k j => j < records.length ∧ keyAt g records j = k)
        hinv.2.1 (by rw [hkey]; exact ⟨hilt, rfl⟩)
    · intro j hj
      rcases Nat.lt_or_ge j i with hji | hji
      · obtain ⟨e, he, hk, hjm⟩ := hinv.2.2 j hji
        obtain ⟨e', he', hk', hmono⟩ := dictInsert_mem_mono bs (g.bucketKey r) i e he
        exact ⟨e', he', by rw [hk', hk], hmono j hjm⟩
      · have : j = i := by omega
        subst this
        obtain ⟨e, he, hk, hjm⟩ := dictInsert_mem_self bs (g.bucketKey r) j
        exact ⟨e, he, by rw [hk, hkey], hjm⟩

theorem mkBuckets_spec (g : DupeGrouper) (records : List ImageRecord) :
    (((mkBuckets g records).map Prod.fst).Nodup ∧
      (∀ e ∈ mkBuckets g records, ∀ j ∈ e.2,
        j < records.length ∧ keyAt g records j = e.1) ∧
      (∀ j, j < records.length →
        ∃ e ∈ mkBuckets g records, e.1 = keyAt g records j ∧ j ∈ e.2)) := by
  apply mkBucketsAux_spec records records 0 [] (by simp)
  refine ⟨List.nodup_nil, ?_, ?_⟩
  · intro e he; exact (List.not_mem_nil e he).elim
  · intro j hj; omega

/-- Any two in-range indices with the same bucket key land in one common
bucket entry. -/
theorem mkBuckets_pair {g : DupeGrouper} {records : List ImageRecord} {a b : Nat}
    (ha : a < records.length) (hb : b < records.length)
    (hk : keyAt g records a = keyAt g records b) :
    ∃ e ∈ mkBuckets g records, a ∈ e.2 ∧ b ∈ e.2 := by
  obtain ⟨hnd, _, hpres⟩ := mkBuckets_spec g records
  obtain ⟨ea, hea, hka, hma⟩ := hpres a ha
  obtain ⟨eb, heb, hkb, hmb⟩ := hpres b hb
  have : ea = eb := nodupKeys_entry_eq hnd hea heb (by rw [hka, hkb, hk])
  subst this
  exact ⟨ea, hea, hma, hmb⟩

/-! The initial parent array `list(range(len(records)))`. -/

theorem range_getD {n i : Nat} (hi : i < n) : (List.range n).getD i 0 = i := by
  rw [List.getD_eq_getElem?_getD, List.getElem?_range hi]
  rfl

theorem UFInv_range (n : Nat) : UFInv n (List.range n) := by
  refine ⟨List.length_range n, ?_, ?_⟩
  · intro i hi
    rw [range_getD hi]
    exact hi
  · intro i hi
    exact ⟨0, show (List.range n).getD i 0 = i from range_getD hi⟩

theorem rootOf_range {n i : Nat} (hi : i < n) : rootOf (List.range n) i = i :=
  rootOf_of_isRoot (UFInv_range n) hi (range_getD hi)

theorem soundInv_range (g : DupeGrouper) (records : List ImageRecord) :
    SoundInv g records (List.range records.length) := by
  intro x y hx hy hxy
  rw [rootOf_range hx, rootOf_range hy] at hxy
  subst hxy
  exact Conn.refl x

/-- Summary of the union phase: the forest invariant holds, equal semantic
roots only arise from chains of `linked` pairs, and every `linked` pair has
been merged. -/
theorem unionPhase_spec (g : DupeGrouper) (records : List ImageRecord) :
    UFInv records.length (unionPhase g records) ∧
    SoundInv g records (unionPhase g records) ∧
    ∀ a b, linked g records a b →
      rootOf (unionPhase g records) a = rootOf (unionPhase g records) b := by
  obtain ⟨hnd, hmem, hpres⟩ := mkBuckets_spec g records
  obtain ⟨ht, hj⟩ := bucketFold_tracks (mkBuckets g records)
    (List.range records.length) (UFInv_range records.length)
    (fun e he x hx => hmem e he x hx)
  refine ⟨ht.1, ht.2.2 (soundInv_range g records), ?_⟩
  intro a b hl
  obtain ⟨ha, hb, hk, hc⟩ := hl
  obtain ⟨e, he, hma, hmb⟩ := mkBuckets_pair ha hb hk
  exact hj e he a hma b hmb hc

/-! Entry-level eliminator for dictInsert, and key monotonicity. -/

theorem dictInsert_mem_elim {κ : Type} [DecidableEq κ] :
    ∀ (bs : List (κ × List Nat)), (bs.map Prod.fst).Nodup →
      ∀ (k : κ) (i : Nat) (e : κ × List Nat), e ∈ dictInsert bs k i →
        (e ∈ bs ∧ e.1 ≠ k) ∨
        (e.1 = k ∧ ∃ w, e.2 = w ++ [i] ∧
          ((k, w) ∈ bs ∨ (w = [] ∧ k ∉ bs.map Prod.fst))) := by
  intro bs
  induction bs with
  | nil =>
    intro _ k i e he
    simp only [dictInsert, List.mem_singleton] at he
    subst he
    exact Or.inr ⟨rfl, [], rfl, Or.inr ⟨rfl, by simp⟩⟩
  | cons e0 rest ih =>
    intro hnd k i e he
    obtain ⟨k', v⟩ := e0
    simp only [List.map_cons, List.nodup_cons] at hnd
    by_cases hek : k' = k
    · rw [show dictInsert ((k', v) :: rest) k i = (k', v ++ [i]) :: rest from by
        rw [dictInsert, if_pos hek]] at he
      rcases List.mem_cons.mp he with rfl | her
      · exact Or.inr ⟨hek, v, rfl, Or.inl (by rw [← hek]; exact List.mem_cons_self _ _)⟩
      · refine Or.inl ⟨List.mem_cons_of_mem _ her, ?_⟩
        intro heq
        apply hnd.1
        rw [hek, ← heq]
        exact List.mem_map_of_mem Prod.fst her
    · rw [show dictInsert ((k', v) :: rest) k i = (k', v) :: dictInsert rest k i from by
        rw [dictInsert, if_neg hek]] at he
      rcases List.mem_cons.mp he with rfl | her
      · exact Or.inl ⟨List.mem_cons_self _ _, hek⟩
      · rcases ih hnd.2 k i e her with ⟨hin, hne⟩ | ⟨hke, w, hw, hcase⟩
        · exact Or.inl ⟨List.mem_cons_of_mem _ hin, hne⟩
        · refine Or.inr ⟨hke, w, hw, ?_⟩
          rcases hcase with hin | ⟨hwnil, hnotin⟩
          · exact Or.inl (List.mem_cons_of_mem _ hin)
          · refine Or.inr ⟨hwnil, ?_⟩
            simp only [List.map_cons, List.mem_cons]
            rintro (h' | h')
            · exact hek h'.symm
            · exact hnotin h'

theorem dictInsert_keys_mono {κ : Type} [DecidableEq κ]
    {bs : List (κ × List Nat)} {x : κ} (hx : x ∈ bs.map Prod.fst) (k : κ) (i : Nat) :
    x ∈ (dictInsert bs k i).map Prod.fst := by
  rw [dictInsert_keys]
  by_cases hmem : k ∈ bs.map Prod.fst
  · rw [if_pos hmem]; exact hx
  · rw [if_neg hmem]; exact List.mem_append_left _ hx

theorem dictInsert_key_self_mem {κ : Type} [DecidableEq κ]
    (bs : List (κ × List Nat)) (k : κ) (i : Nat) :
    k ∈ (dictInsert bs k i).map Prod.fst := by
  rw [dictInsert_keys]
  by_cases hmem : k ∈ bs.map Prod.fst
  · rw [if_pos hmem]; exact hmem
  · rw [if_neg hmem]; exact List.mem_append_right _ (List.mem_singleton_self k)

theorem build_groups_def (g : DupeGrouper) (records : List ImageRecord) :
    g.build_groups records =
      (groupPass (unionPhase g records) records.length).2.filter
        (fun kv => 1 < kv.2.length) := rfl

theorem groupPass_succ (pS : List Nat) (t : Nat) :
    groupPass pS (t + 1) =
      ((find (groupPass pS t).1 t).1,
        dictInsert (groupPass pS t).2 (find (groupPass pS t).1 t).2 t) := by
  rw [groupPass, List.range_succ, List.foldl_append]
  rfl

/-- Invariant of the final grouping pass: the parent array keeps the forest
invariant and its semantic roots, and the accumulated dict maps each root
seen so far to exactly the indices of its class, in increasing order. -/
theorem groupPass_spec {n : Nat} {pS : List Nat} (hS : UFInv n pS) :
    ∀ t, t ≤ n →
      UFInv n (groupPass pS t).1 ∧
      (∀ k, k < n → rootOf (groupPass pS t).1 k = rootOf pS k) ∧
      (∀ e ∈ (groupPass pS t).2,
        e.2 = (List.range t).filter (fun j => rootOf pS j = e.1) ∧ e.2 ≠ []) ∧
      ((groupPass pS t).2.map Prod.fst).Nodup ∧
      (∀ j, j < t → rootOf pS j ∈ (groupPass pS t).2.map Prod.fst) := by
  intro t
  induction t with
  | zero =>
    intro _
    have h0 : groupPass pS 0 = (pS, []) := by
      rw [groupPass, List.range_zero, List.foldl_nil]
    rw [h0]
    refine ⟨hS, fun k _ => rfl, ?_, by simp, ?_⟩
    · intro e he
      exact (List.not_mem_nil e he).elim
    · intro j hj
      omega
  | succ t ih =>
    intro ht1
    have ht : t ≤ n := by omega
    have htn : t < n := by omega
    obtain ⟨hInv, hpres, hent, hnd, hkeys⟩ := ih ht
    obtain ⟨hInvF, hvalF, hpresF⟩ := find_spec hInv htn
    have hr : (find (groupPass pS t).1 t).2 = rootOf pS t := by
      rw [hvalF, hpres t htn]
    rw [groupPass_succ]
    refine ⟨hInvF, ?_, ?_, ?_, ?_⟩
    · intro k hk
      rw [hpresF k hk, hpres k hk]
    · intro e he
      rw [hr] at he
      rcases dictInsert_mem_elim (groupPass pS t).2 hnd (rootOf pS t) t e he with
        ⟨hin, hne⟩ | ⟨hke, w, hw, hcase⟩
      · obtain ⟨hfil, hnil⟩ := hent e hin
        refine ⟨?_, hnil⟩
        rw [List.range_succ, List.filter_append, ← hfil]
        have hsing : [t].filter (fun j => rootOf pS j = e.1) = [] := by
          simp only [List.filter_cons, List.filter_nil]
          rw [if_neg (by simpa using fun h => hne h.symm)]
        rw [hsing, List.append_nil]
      · rcases hcase with hin | ⟨hwnil, hnotin⟩
        · obtain ⟨hfil, _⟩ := hent (rootOf pS t, w) hin
          refine ⟨?_, by simp [hw]⟩
          rw [List.range_succ, List.filter_append, hw]
          have hsing : [t].filter (fun j => rootOf pS j = e.1) = [t] := by
            simp only [List.filter_cons, List.filter_nil]
            rw [if_pos (by simp [hke])]
          rw [hsing]
          congr 1
          rw [hke]
          exact hfil
        · have hfilnil : (List.range t).filter (fun j => rootOf pS j = e.1) = [] := by
            apply List.filter_eq_nil_iff.mpr
            intro j hj hpj
            have hjt : j < t := List.mem_range.mp hj
            have hje : rootOf pS j = e.1 := by simpa using hpj
            apply hnotin
            rw [← hke, ← hje]
            exact hkeys j hjt
          refine ⟨?_, by simp [hw]⟩
          rw [List.range_succ, List.filter_append, hw, hwnil, hfilnil]
          have hsing : [t].filter (fun j => rootOf pS j = e.1) = [t] := by
            simp only [List.filter_cons, List.filter_nil]
            rw [if_pos (by simp [hke])]
          rw [hsing]
    · exact dictInsert_nodupKeys hnd _ _
    · intro j hj
      rcases Nat.lt_or_ge j t with hjt | hjt
      · exact dictInsert_keys_mono (hkeys j hjt) _ _
      · have : j = t := by omega
        subst this
        rw [hr]
        exact dictInsert_key_self_mem _ _ _

theorem one_lt_length_of_two_mem {l : List Nat} {a b : Nat}
    (ha : a ∈ l) (hb : b ∈ l) (hab : a ≠ b) : 1 < l.length := by
  cases l with
  | nil => exact (List.not_mem_nil a ha).elim
  | cons x xs =>
    cases xs with
    | nil =>
      rw [List.mem_singleton] at ha hb
      exact (hab (ha.trans hb.symm)).elim
    | cons y ys =>
      simp only [List.length_cons]
      omega

/-- Every entry of the returned grouping consists of the indices of one
union-find class, and has at least two members. -/
theorem build_groups_entry {g : DupeGrouper} {records : List ImageRecord}
    {e : Nat × List Nat} (he : e ∈ g.build_groups records) :
    e.2 = (List.range records.length).filter
        (fun j => rootOf (unionPhase g records) j = e.1) ∧
      1 < e.2.length := by
  rw [build_groups_def] at he
  have hmf := List.mem_filter.mp he
  obtain ⟨hUF, _, _⟩ := unionPhase_spec g records
  obtain ⟨_, _, hent, _, _⟩ := groupPass_spec hUF records.length (le_refl _)
  exact ⟨(hent e hmf.1).1, by simpa using hmf.2⟩

/-- Soundness: two indices in one returned group are connected by a chain of
`linked` pairs. -/
theorem build_groups_sound {g : DupeGrouper} {records : List ImageRecord}
    {e : Nat × List Nat} (he : e ∈ g.build_groups records)
    {a b : Nat} (ha : a ∈ e.2) (hb : b ∈ e.2) : Conn (linked g records) a b := by
  obtain ⟨hfil, _⟩ := build_groups_entry he
  rw [hfil] at ha hb
  have hma := List.mem_filter.mp ha
  have hmb := List.mem_filter.mp hb
  have haN : a < records.length := List.mem_range.mp hma.1
  have hbN : b < records.length := List.mem_range.mp hmb.1
  have hra : rootOf (unionPhase g records) a = e.1 := by simpa using hma.2
  have hrb : rootOf (unionPhase g records) b = e.1 := by simpa using hmb.2
  obtain ⟨_, hsound, _⟩ := unionPhase_spec g records
  exact hsound a b haN hbN (by rw [hra, hrb])

/-- Completeness: a `linked` pair of distinct indices always ends up together
in some returned group. -/
theorem build_groups_complete {g : DupeGrouper} {records : List ImageRecord}
    {a b : Nat} (hl : linked g records a b) (hab : a ≠ b) :
    ∃ e ∈ g.build_groups records, a ∈ e.2 ∧ b ∈ e.2 := by
  obtain ⟨hUF, _, hjoin⟩ := unionPhase_spec g records
  obtain ⟨_, _, hent, hnd, hkeys⟩ := groupPass_spec hUF records.length (le_refl _)
  have haN := hl.1
  have hbN := hl.2.1
  have hroot := hjoin a b hl
  have hkmem := hkeys a haN
  rw [List.mem_map] at hkmem
  obtain ⟨e, he, hke⟩ := hkmem
  have hfil := (hent e he).1
  have hamem : a ∈ e.2 := by
    rw [hfil, List.mem_filter]
    exact ⟨List.mem_range.mpr haN, by simp [hke]⟩
  have hbmem : b ∈ e.2 := by
    rw [hfil, List.mem_filter]
    refine ⟨List.mem_range.mpr hbN, by simp [hke, ← hroot]⟩
  refine ⟨e, ?_, hamem, hbmem⟩
  rw [build_groups_def]
  rw [List.mem_filter]
  exact ⟨he, by simpa using one_lt_length_of_two_mem hamem hbmem hab⟩

/-- The returned grouping has pairwise distinct keys. -/
theorem build_groups_nodupKeys (g : DupeGrouper) (records : List ImageRecord) :
    ((g.build_groups records).map Prod.fst).Nodup := by
  obtain ⟨hUF, _, _⟩ := unionPhase_spec g records
  obtain ⟨_, _, _, hnd, _⟩ := groupPass_spec hUF records.length (le_refl _)
  rw [build_groups_def]
  exact List.Nodup.sublist (List.Sublist.map Prod.fst (List.filter_sublist _)) hnd

/-- Each key of the returned grouping is itself a member of its group (it is
the union-find root of the cluster). -/
theorem build_groups_key_mem {g : DupeGrouper} {records : List ImageRecord}
    {e : Nat × List Nat} (he : e ∈ g.build_groups records) : e.1 ∈ e.2 := by
  obtain ⟨hfil, hlen⟩ := build_groups_entry he
  obtain ⟨hUF, _, _⟩ := unionPhase_spec g records
  have hnonnil : e.2 ≠ [] := by
    intro hnil
    rw [hnil] at hlen
    simp at hlen
  obtain ⟨j, hj⟩ := List.exists_mem_of_ne_nil e.2 hnonnil
  rw [hfil] at hj
  have hmj := List.mem_filter.mp hj
  have hjN : j < records.length := List.mem_range.mp hmj.1
  have hrj : rootOf (unionPhase g records) j = e.1 := by simpa using hmj.2
  have hroot : IsRoot (unionPhase g records) e.1 := by
    rw [← hrj]
    exact rootOf_isRoot hUF hjN
  have he1N : e.1 < records.length := by
    rw [← hrj]
    exact rootOf_lt hUF hjN
  rw [hfil, List.mem_filter]
  refine ⟨List.mem_range.mpr he1N, ?_⟩
  simp [rootOf_of_isRoot hUF he1N hroot]

/-- Members of the returned groups are strictly increasing record indices. -/
theorem build_groups_sorted {g : DupeGrouper} {records : List ImageRecord}
    {e : Nat × List Nat} (he : e ∈ g.build_groups records) :
    e.2.Pairwise (· < ·) := by
  obtain ⟨hfil, _⟩ := build_groups_entry he
  rw [hfil]
  exact List.Pairwise.filter _ (List.pairwise_lt_range records.length)

/-- A record index belongs to the member list of at most one returned group. -/
theorem build_groups_disjoint {g : DupeGrouper} {records : List ImageRecord}
    {e1 e2 : Nat × List Nat} (h1 : e1 ∈ g.build_groups records)
    (h2 : e2 ∈ g.build_groups records) {i : Nat}
    (hi1 : i ∈ e1.2) (hi2 : i ∈ e2.2) : e1 = e2 := by
  obtain ⟨hfil1, _⟩ := build_groups_entry h1
  obtain ⟨hfil2, _⟩ := build_groups_entry h2
  rw [hfil1] at hi1
  rw [hfil2] at hi2
  have hr1 : rootOf (unionPhase g records) i = e1.1 := by
    simpa using (List.mem_filter.mp hi1).2
  have hr2 : rootOf (unionPhase g records) i = e2.1 := by
    simpa using (List.mem_filter.mp hi2).2
  exact nodupKeys_entry_eq (build_groups_nodupKeys g records) h1 h2 (by rw [← hr1, ← hr2])

/-! Connectivity eliminators used by the claims. -/

theorem conn_keyAt {g : DupeGrouper} {records : List ImageRecord} :
    ∀ {a b : Nat}, Conn (linked g records) a b →
      keyAt g records a = keyAt g records b := by
  intro a b h
  induction h with
  | of a b hr => exact hr.2.2.1
  | refl a => rfl
  | symm a b _ ih => exact ih.symm
  | trans a b c _ _ ih1 ih2 => exact ih1.trans ih2

theorem conn_bounds {g : DupeGrouper} {records : List ImageRecord} :
    ∀ {a b : Nat}, Conn (linked g records) a b → a ≠ b →
      a < records.length ∧ b < records.length := by
  intro a b h
  induction h with
  | of a b hr => exact fun _ => ⟨hr.1, hr.2.1⟩
  | refl a => exact fun hne => (hne rfl).elim
  | symm a b _ ih =>
    intro hne
    by_cases hab : b = a
    · subst hab; exact (hne rfl).elim
    · exact (ih (fun h' => hab h'.symm)).symm
  | trans a b c _ _ ih1 ih2 =>
    intro hne
    by_cases hab : a = b
    · subst hab; exact ih2 hne
    · by_cases hbc : b = c
      · subst hbc; exact ih1 hab
      · exact ⟨(ih1 hab).1, (ih2 hbc).2⟩

/-- A connection between two distinct indices forces an actual link at each
endpoint: some other index is linked with it. -/
theorem conn_edge {r : Nat → Nat → Prop} :
    ∀ {a b : Nat}, Conn r a b →
      a = b ∨ ((∃ c, c ≠ a ∧ (r a c ∨ r c a)) ∧ (∃ c, c ≠ b ∧ (r b c ∨ r c b))) := by
  intro a b h
  induction h with
  | of a b hr =>
    by_cases hab : a = b
    · exact Or.inl hab
    · exact Or.inr ⟨⟨b, fun h' => hab h'.symm, Or.inl hr⟩, ⟨a, hab, Or.inr hr⟩⟩
  | refl a => exact Or.inl rfl
  | symm a b _ ih =>
    rcases ih with heq | ⟨ha, hb⟩
    · exact Or.inl heq.symm
    · exact Or.inr ⟨hb, ha⟩
  | trans a b c _ _ ih1 ih2 =>
    rcases ih1 with heq1 | ⟨ha, hb⟩
    · rcases ih2 with heq2 | ⟨hb2, hc⟩
      · exact Or.inl (heq1.trans heq2)
      · exact Or.inr ⟨heq1 ▸ hb2, hc⟩
    · rcases ih2 with heq2 | ⟨hb2, hc⟩
      · exact Or.inr ⟨ha, heq2 ▸ hb⟩
      · exact Or.inr ⟨ha, hc⟩

theorem build_groups_mem_lt {g : DupeGrouper} {records : List ImageRecord}
    {e : Nat × List Nat} (he : e ∈ g.build_groups records) {j : Nat}
    (hj : j ∈ e.2) : j < records.length := by
  obtain ⟨hfil, _⟩ := build_groups_entry he
  rw [hfil] at hj
  exact List.mem_range.mp (List.mem_filter.mp hj).1

theorem build_groups_pairwise_disjoint (g : DupeGrouper) (records : List ImageRecord) :
    List.Pairwise (fun e1 e2 => ∀ j ∈ e1.2, j ∉ e2.2) (g.build_groups records) := by
  have hnd := build_groups_nodupKeys g records
  have hpw : List.Pairwise (fun e1 e2 : Nat × List Nat => e1.1 ≠ e2.1)
      (g.build_groups records) := List.pairwise_map.mp hnd
  refine List.Pairwise.imp_of_mem ?_ hpw
  intro e1 e2 h1 h2 hne j hj1 hj2
  exact hne (congrArg Prod.fst (build_groups_disjoint h1 h2 hj1 hj2))

/-! The dense relabeling performed by on_scan (finder.py lines 373-377). -/

theorem setGidFold_length (gid : Nat) :
    ∀ (mem : List Nat) (rs : List ImageRecord),
      (mem.foldl (fun rs' idx => DuplicateFinderApp.setGid rs' idx gid) rs).length =
        rs.length := by
  intro mem
  induction mem with
  | nil => intro rs; rfl
  | cons i0 mem ih =>
    intro rs
    show (mem.foldl _ (DuplicateFinderApp.setGid rs i0 gid)).length = rs.length
    rw [ih (DuplicateFinderApp.setGid rs i0 gid), DuplicateFinderApp.setGid,
      List.length_set]

theorem getD_out {α : Type} (l : List α) (j : Nat) (d : α) (h : l.length ≤ j) :
    l.getD j d = d := by
  rw [List.getD_eq_getElem?_getD, List.getElem?_eq_none h]
  rfl

theorem setGid_getD (rs : List ImageRecord) (i0 gid j : Nat) :
    (DuplicateFinderApp.setGid rs i0 gid).getD j default =
      if j = i0 ∧ j < rs.length then
        { rs.getD j default with group_id := some gid }
      else rs.getD j default := by
  by_cases hjl : j < rs.length
  · by_cases hji : j = i0
    · subst hji
      rw [if_pos ⟨rfl, hjl⟩, DuplicateFinderApp.setGid, getD_set_self rs j _ default hjl]
    · rw [if_neg (fun h => hji h.1), DuplicateFinderApp.setGid,
        getD_set_ne rs _ default (fun h => hji h.symm)]
  · rw [if_neg (fun h => hjl h.2)]
    have hlen : (DuplicateFinderApp.setGid rs i0 gid).length = rs.length := by
      rw [DuplicateFinderApp.setGid, List.length_set]
    rw [getD_out (DuplicateFinderApp.setGid rs i0 gid) j default (by omega),
      getD_out rs j default (by omega)]

theorem setGidFold_getD (gid : Nat) :
    ∀ (mem : List Nat) (rs : List ImageRecord) (j : Nat),
      ((mem.foldl (fun rs' idx => DuplicateFinderApp.setGid rs' idx gid) rs).getD j
          default) =
        if j ∈ mem ∧ j < rs.length then
          { rs.getD j default with group_id := some gid }
        else rs.getD j default := by
  intro mem
  induction mem with
  | nil =>
    intro rs j
    rw [if_neg (fun h => List.not_mem_nil j h.1)]
    rfl
  | cons i0 mem ih =>
    intro rs j
    show ((mem.foldl _ (DuplicateFinderApp.setGid rs i0 gid)).getD j default) = _
    rw [ih (DuplicateFinderApp.setGid rs i0 gid) j]
    have hlen : (DuplicateFinderApp.setGid rs i0 gid).length = rs.length := by
      rw [DuplicateFinderApp.setGid, List.length_set]
    rw [hlen, setGid_getD]
    split_ifs with h1 h2 h3 h4 h5 h6 h7 <;>
      first
        | rfl
        | (exfalso; simp only [List.mem_cons] at *; tauto)

theorem assignAux_length :
    ∀ (gs : List (Nat × List Nat)) (rs : List ImageRecord) (c : Nat),
      (DuplicateFinderApp.assignAux gs rs c).length = rs.length := by
  intro gs
  induction gs with
  | nil => intro rs c; rfl
  | cons e rest ih =>
    intro rs c
    obtain ⟨r0, mem⟩ := e
    show (DuplicateFinderApp.assignAux rest _ (c + 1)).length = rs.length
    rw [ih, setGidFold_length]

theorem assignAux_untouched :
    ∀ (gs : List (Nat × List Nat)) (rs : List ImageRecord) (c : Nat) (j : Nat),
      (∀ e ∈ gs, j ∉ e.2) →
      (DuplicateFinderApp.assignAux gs rs c).getD j default = rs.getD j default := by
  intro gs
  induction gs with
  | nil => intro rs c j _; rfl
  | cons e rest ih =>
    intro rs c j hnot
    obtain ⟨r0, mem⟩ := e
    show (DuplicateFinderApp.assignAux rest _ (c + 1)).getD j default = rs.getD j default
    rw [ih _ (c + 1) j (fun e' he' => hnot e' (List.mem_cons_of_mem _ he')),
      setGidFold_getD]
    rw [if_neg (fun h => hnot (r0, mem) (List.mem_cons_self _ _) h.1)]

theorem assignAux_member :
    ∀ (gs : List (Nat × List Nat)) (rs : List ImageRecord) (c : Nat) (t : Nat)
      (e : Nat × List Nat),
      (∀ e' ∈ gs, ∀ j ∈ e'.2, j < rs.length) →
      List.Pairwise (fun e1 e2 => ∀ j ∈ e1.2, j ∉ e2.2) gs →
      gs[t]? = some e → ∀ j ∈ e.2,
        ((DuplicateFinderApp.assignAux gs rs c).getD j default).group_id =
          some (c + t) := by
  intro gs
  induction gs with
  | nil =>
    intro rs c t e _ _ hget
    simp at hget
  | cons e0 rest ih =>
    intro rs c t e hbound hpw hget j hj
    obtain ⟨r0, mem⟩ := e0
    have hpwc := List.pairwise_cons.mp hpw
    cases t with
    | zero =>
      simp only [List.getElem?_cons_zero, Option.some_inj] at hget
      subst hget
      show ((DuplicateFinderApp.assignAux rest _ (c + 1)).getD j default).group_id =
        some (c + 0)
      rw [assignAux_untouched rest _ (c + 1) j
        (fun e' he' => hpwc.1 e' he' j hj), setGidFold_getD]
      rw [if_pos ⟨hj, hbound (r0, mem) (List.mem_cons_self _ _) j hj⟩]
      rfl
    | succ t =>
      simp only [List.getElem?_cons_succ] at hget
      show ((DuplicateFinderApp.assignAux rest _ (c + 1)).getD j default).group_id =
        some (c + (t + 1))
      have hres := ih (mem.foldl (fun rs' idx => DuplicateFinderApp.setGid rs' idx c) rs)
        (c + 1) t e
        (fun e' he' j' hj' => by
          rw [setGidFold_length]
          exact hbound e' (List.mem_cons_of_mem _ he') j' hj')
        hpwc.2 hget j hj
      rw [hres]
      congr 1
      omega

/-- The ids written by the relabeling loop of `on_scan` are exactly
`1, 2, ..., k` where `k` is the number of groups returned by
`build_groups`. -/
theorem assignGroupIds_ids (g : DupeGrouper) (records : List ImageRecord)
    (hnone : ∀ r ∈ records, r.group_id = none) (m : Nat) :
    (∃ rec ∈ DuplicateFinderApp.assignGroupIds (g.build_groups records) records,
        rec.group_id = some m) ↔
      (1 ≤ m ∧ m ≤ (g.build_groups records).length) := by
  have hdef : DuplicateFinderApp.assignGroupIds (g.build_groups records) records =
      DuplicateFinderApp.assignAux (g.build_groups records) records 1 := rfl
  have hbound : ∀ e ∈ g.build_groups records, ∀ j ∈ e.2, j < records.length :=
    fun e he j hj => build_groups_mem_lt he hj
  have hpw := build_groups_pairwise_disjoint g records
  have hlen : (DuplicateFinderApp.assignAux (g.build_groups records) records 1).length =
      records.length := assignAux_length _ _ _
  rw [hdef]
  constructor
  · rintro ⟨rec, hmem, hgid⟩
    obtain ⟨j, hjl, hjval⟩ := List.getElem_of_mem hmem
    have hjr : j < records.length := by rw [← hlen]; exact hjl
    have hgetD : (DuplicateFinderApp.assignAux (g.build_groups records) records 1).getD
        j default = rec := by
      rw [List.getD_eq_getElem?_getD, List.getElem?_eq_getElem hjl, hjval]
      rfl
    by_cases hcov : ∃ e ∈ g.build_groups records, j ∈ e.2
    · obtain ⟨e, he, hje⟩ := hcov
      obtain ⟨t, htl, hte⟩ := List.getElem_of_mem he
      have hmain := assignAux_member (g.build_groups records) records 1 t e hbound hpw
        (by rw [List.getElem?_eq_getElem htl, hte]) j hje
      rw [hgetD, hgid] at hmain
      have hm : m = 1 + t := by
        injection hmain
      constructor
      · omega
      · omega
    · push_neg at hcov
      have huntouched := assignAux_untouched (g.build_groups records) records 1 j hcov
      rw [hgetD] at huntouched
      have hmemr : records.getD j default ∈ records := by
        rw [List.getD_eq_getElem?_getD, List.getElem?_eq_getElem hjr]
        exact List.getElem_mem hjr
      have hnone' := hnone _ hmemr
      rw [← huntouched, hgid] at hnone'
      exact (Option.some_ne_none m hnone').elim
  · rintro ⟨h1m, hmk⟩
    have htl : m - 1 < (g.build_groups records).length := by omega
    have he : (g.build_groups records)[m - 1] ∈ g.build_groups records :=
      List.getElem_mem htl
    have hne : ((g.build_groups records)[m - 1]).2 ≠ [] := by
      have hlen2 := (build_groups_entry he).2
      intro hnil
      rw [hnil] at hlen2
      simp at hlen2
    obtain ⟨j, hj⟩ := List.exists_mem_of_ne_nil _ hne
    have hjr : j < records.length := build_groups_mem_lt he hj
    have hgid := assignAux_member (g.build_groups records) records 1 (m - 1)
      ((g.build_groups records)[m - 1]) hbound hpw
      (List.getElem?_eq_getElem htl) j hj
    refine ⟨(DuplicateFinderApp.assignAux (g.build_groups records) records 1).getD
      j default, ?_, ?_⟩
    · have hjl : j < (DuplicateFinderApp.assignAux
          (g.build_groups records) records 1).length := by omega
      rw [List.getD_eq_getElem?_getD, List.getElem?_eq_getElem hjl]
      exact List.getElem_mem hjl
    · rw [hgid]
      congr 1
      omega

/-! Scanner-level facts. -/

theorem scan_folder_mem {stop : Bool} {env : String → Option DecodedImage}
    {fs : String → List (String × List String)} {root : String}
    {rec : ImageRecord} (h : rec ∈ ImageScanner.scan_folder stop env fs root) :
    ∃ q ∈ ImageScanner.collect_files stop (fs root), env q = some
      { size_bytes := rec.size_bytes, mtime := rec.mtime, width := rec.width,
        height := rec.height, hash_str := rec.hash_str } ∧ rec.path = q := by
  rw [ImageScanner.scan_folder] at h
  cases stop with
  | true => simp at h
  | false =>
    simp only [Bool.false_eq_true, if_false] at h
    obtain ⟨q, hq, hsome⟩ := List.mem_filterMap.mp h
    refine ⟨q, hq, ?_⟩
    rw [ImageScanner.hash_one] at hsome
    cases henv : env q with
    | none => rw [henv] at hsome; exact absurd hsome (by simp)
    | some d =>
      rw [henv] at hsome
      injection hsome with h'
      rw [← h']
      exact ⟨rfl, rfl⟩

/-! The claims. -/

/-- C1 (counterexample): with threshold 1 and bucket width 1, the three
fingerprints 0000, 0001, 0003 all land in one group although the Hamming
distance between 0000 and 0003 is 2, which exceeds the threshold: grouping
is the transitive closure of the pairwise comparisons, not the pairwise
comparison itself. -/
theorem c1_counterexample :
    (∃ e ∈ (DupeGrouper.init 1 1).build_groups
        [recOf ['0','0','0','0'], recOf ['0','0','0','1'], recOf ['0','0','0','3']],
      0 ∈ e.2 ∧ 2 ∈ e.2) ∧
    ¬ ((HashEngine.hamming_distance ['0','0','0','0'] ['0','0','0','3'] : Int) ≤
        (DupeGrouper.init 1 1).threshold) := by
  decide

/-- C1 (amended): two records placed in the same group by
`DupeGrouper.build_groups` need not be within the threshold of each other;
what holds is that they are joined by a chain of records, all in the same
bucket, in which each consecutive pair has identical fingerprints or
fingerprints within the threshold Hamming distance. -/
theorem c1_theorem (g : DupeGrouper) (records : List ImageRecord) (a b : Nat)
    (h : ∃ e ∈ g.build_groups records, a ∈ e.2 ∧ b ∈ e.2) :
    Conn (linked g records) a b := by
  obtain ⟨e, he, ha, hb⟩ := h
  exact build_groups_sound he ha hb

theorem c1_witness :
    Conn (linked (DupeGrouper.init 1 1)
      [recOf ['0','0','0','0'], recOf ['0','0','0','1'], recOf ['0','0','0','3']])
      0 2 :=
  c1_theorem (DupeGrouper.init 1 1)
    [recOf ['0','0','0','0'], recOf ['0','0','0','1'], recOf ['0','0','0','3']]
    0 2 (by decide)

/-- C2: two distinct in-range records with the same bucket prefix and
Hamming distance within the threshold are always placed in the same group by
`DupeGrouper.build_groups`. -/
theorem c2_theorem (g : DupeGrouper) (records : List ImageRecord) (a b : Nat)
    (hab : a ≠ b) (ha : a < records.length) (hb : b < records.length)
    (hk : keyAt g records a = keyAt g records b)
    (hd : (HashEngine.hamming_distance (records.getD a default).hash_str
      (records.getD b default).hash_str : Int) ≤ g.threshold) :
    ∃ e ∈ g.build_groups records, a ∈ e.2 ∧ b ∈ e.2 :=
  build_groups_complete ⟨ha, hb, hk, Or.inr hd⟩ hab

theorem c2_witness :
    ∃ e ∈ (DupeGrouper.init 5 1).build_groups
      [recOf ['0','0','0','0'], recOf ['0','0','0','1']], 0 ∈ e.2 ∧ 1 ∈ e.2 :=
  c2_theorem (DupeGrouper.init 5 1)
    [recOf ['0','0','0','0'], recOf ['0','0','0','1']] 0 1
    (by decide) (by decide) (by decide) (by decide) (by decide)

/-- C3: every group in the mapping returned by `build_groups` has at least
two members, and an isolated record (one with no other record of its bucket
whose fingerprint is identical or within the threshold) appears in no group
of the output: singleton clusters are dropped by the final filter. -/
theorem c3_theorem (g : DupeGrouper) (records : List ImageRecord) :
    (∀ e ∈ g.build_groups records, 2 ≤ e.2.length) ∧
    (∀ i, isolated g records i → ∀ e ∈ g.build_groups records, i ∉ e.2) := by
  constructor
  · intro e he
    have := (build_groups_entry he).2
    omega
  · intro i hiso e he hmem
    have hlen := (build_groups_entry he).2
    have hsorted := build_groups_sorted he
    have hexists : ∃ j ∈ e.2, j ≠ i := by
      cases hl : e.2 with
      | nil => rw [hl] at hlen; simp at hlen
      | cons x xs =>
        cases hxs : xs with
        | nil => rw [hl, hxs] at hlen; simp at hlen
        | cons y ys =>
          rw [hl, hxs] at hsorted
          have hxy : x < y := (List.pairwise_cons.mp hsorted).1 y
            (List.mem_cons_self y ys)
          by_cases hxi : x = i
          · exact ⟨y, List.mem_cons_of_mem x (List.mem_cons_self y ys), by omega⟩
          · exact ⟨x, List.mem_cons_self _ _, hxi⟩
    obtain ⟨j, hj, hji⟩ := hexists
    have hconn : Conn (linked g records) i j := build_groups_sound he hmem hj
    rcases conn_edge hconn with heq | ⟨⟨c, hc, hlink⟩, _⟩
    · exact hji heq.symm
    · have hic : linked g records i c := by
        rcases hlink with h' | h'
        · exact h'
        · exact linked_symm h'
      exact hiso c hic.2.1 hc hic

theorem c3_witness :
    (2 ≤ ([0, 1] : List Nat).length) ∧
    ¬ (2 : Nat) ∈ ([0, 1] : List Nat) := by
  constructor
  · exact (c3_theorem (DupeGrouper.init 0 4)
      [recOf ['0','0','0','0'], recOf ['0','0','0','0'], recOf ['f','f','f','f']]).1
      (0, [0, 1]) (by decide)
  · exact (c3_theorem (DupeGrouper.init 0 4)
      [recOf ['0','0','0','0'], recOf ['0','0','0','0'], recOf ['f','f','f','f']]).2
      2 (by decide) (0, [0, 1]) (by decide)

/-- C4 (counterexample): on two identical records, `build_groups` returns a
single group whose key is 0 (the union-find root index), not 1: the grouper's
own output mapping is keyed by roots, not by dense ids 1..k. -/
theorem c4_counterexample :
    (((DupeGrouper.init 0 4).build_groups
        [recOf ['0','0','0','0'], recOf ['0','0','0','0']]).map Prod.fst = [0]) ∧
    (((DupeGrouper.init 0 4).build_groups
        [recOf ['0','0','0','0'], recOf ['0','0','0','0']]).map Prod.fst ≠ [1]) := by
  decide

/-- C4 (amended): the keys of the mapping returned by `build_groups` are
union-find roots; the dense ids 1, 2, ..., k are assigned by the caller
`on_scan`, whose relabeling loop writes to the records exactly the group ids
1 through k (k the number of returned groups). -/
theorem c4_theorem (g : DupeGrouper) (records : List ImageRecord)
    (hnone : ∀ r ∈ records, r.group_id = none) (m : Nat) :
    (∃ rec ∈ DuplicateFinderApp.assignGroupIds (g.build_groups records) records,
        rec.group_id = some m) ↔
      (1 ≤ m ∧ m ≤ (g.build_groups records).length) :=
  assignGroupIds_ids g records hnone m

theorem c4_witness :
    ∃ rec ∈ DuplicateFinderApp.assignGroupIds
      ((DupeGrouper.init 0 4).build_groups
        [recOf ['0','0','0','0'], recOf ['0','0','0','0']])
      [recOf ['0','0','0','0'], recOf ['0','0','0','0']],
      rec.group_id = some 1 :=
  (c4_theorem (DupeGrouper.init 0 4)
    [recOf ['0','0','0','0'], recOf ['0','0','0','0']]
    (by decide) 1).mpr (by decide)

/-- C5: two records whose fingerprints are within the threshold but whose
bucket prefixes differ are never placed in the same group: every within-group
connection preserves the bucket key, so no union, direct or transitive,
crosses bucket boundaries. -/
theorem c5_theorem (g : DupeGrouper) (records : List ImageRecord) (a b : Nat)
    (hd : (HashEngine.hamming_distance (records.getD a default).hash_str
      (records.getD b default).hash_str : Int) ≤ g.threshold)
    (hk : keyAt g records a ≠ keyAt g records b) :
    ¬ ∃ e ∈ g.build_groups records, a ∈ e.2 ∧ b ∈ e.2 := by
  have hused := hd
  rintro ⟨e, he, ha, hb⟩
  exact hk (conn_keyAt (build_groups_sound he ha hb))

theorem c5_witness :
    ¬ ∃ e ∈ (DupeGrouper.init 5 4).build_groups
      [recOf ['0','0','0','0'], recOf ['1','0','0','0']], 0 ∈ e.2 ∧ 1 ∈ e.2 :=
  c5_theorem (DupeGrouper.init 5 4)
    [recOf ['0','0','0','0'], recOf ['1','0','0','0']] 0 1 (by decide) (by decide)

/-- C6 (counterexample): for a root that exists (`is_dir` true) but is
unreadable, so that `os.walk` yields nothing, the scan proceeds and returns
the empty record sequence `ok []` instead of reporting an error; and
`ImageScanner.scan_folder` itself performs no validation and returns `[]`
rather than failing. -/
theorem c6_counterexample :
    DuplicateFinderApp.on_scan_core "d" true (fun _ => none) (fun _ => []) =
      Except.ok [] ∧
    ImageScanner.scan_folder false (fun _ => none) (fun _ => []) "d" = [] := by
  constructor <;> rfl

/-- C6 (amended): `on_scan` reports an error and starts no scan when the
folder string is empty or the path is not a directory; but an unreadable
directory that exists is not caught anywhere: `os.walk` swallows the error,
and the scan returns `ok []`.  `scan_folder` itself contains no validation. -/
theorem c6_theorem (folder : String) (env : String → Option DecodedImage)
    (fs : String → List (String × List String)) :
    (DuplicateFinderApp.on_scan_core folder false env fs =
      Except.error (if pyStrip folder = "" then "Choose a folder first."
        else "Folder does not exist or is not a directory.")) ∧
    (fs (pyStrip folder) = [] →
      DuplicateFinderApp.on_scan_core folder true env fs =
        if pyStrip folder = "" then Except.error "Choose a folder first."
        else Except.ok []) := by
  constructor
  · by_cases hf : pyStrip folder = ""
    · simp [DuplicateFinderApp.on_scan_core, hf]
    · simp [DuplicateFinderApp.on_scan_core, hf]
  · intro hempty
    by_cases hf : pyStrip folder = ""
    · simp [DuplicateFinderApp.on_scan_core, hf]
    · simp [DuplicateFinderApp.on_scan_core, hf, ImageScanner.scan_folder,
        ImageScanner.collect_files, hempty]

theorem c6_witness :
    (DuplicateFinderApp.on_scan_core "d" false (fun _ => none) (fun _ => []) =
      Except.error "Folder does not exist or is not a directory.") ∧
    (DuplicateFinderApp.on_scan_core "d" true (fun _ => none) (fun _ => []) =
      Except.ok []) := by
  have htrim : pyStrip "d" = "d" := by decide
  have hc := c6_theorem "d" (fun _ => none) (fun _ => [])
  constructor
  · have h := hc.1
    rw [htrim] at h
    simpa using h
  · have h := hc.2 rfl
    rw [htrim] at h
    simpa using h

/-- C7: a per-file stat/open/decode/hash failure (the oracle returning
`none` for that path) makes `_hash_one` return no record, and the file is
silently omitted from the scan result: no record with that path appears.
The embedded scan is a total function: the per-file try/except lets no
exception escape `scan_folder`. -/
theorem c7_theorem (stop : Bool) (env : String → Option DecodedImage)
    (fs : String → List (String × List String)) (root p : String)
    (henv : env p = none) :
    ImageScanner.hash_one env p = none ∧
    ∀ rec ∈ ImageScanner.scan_folder stop env fs root, rec.path ≠ p := by
  constructor
  · rw [ImageScanner.hash_one, henv]
  · intro rec hmem hpath
    obtain ⟨q, _, henvq, hpathq⟩ := scan_folder_mem hmem
    rw [hpath] at hpathq
    rw [hpathq] at henv
    rw [henv] at henvq
    exact absurd henvq (by simp)

theorem c7_witness :
    ImageScanner.hash_one (fun _ => none) "r/a.jpg" = none ∧
    ∀ rec ∈ ImageScanner.scan_folder false (fun _ => none)
      (fun _ => [("r", ["a.jpg"])]) "r", rec.path ≠ "r/a.jpg" :=
  c7_theorem false (fun _ => none) (fun _ => [("r", ["a.jpg"])]) "r" "r/a.jpg" rfl

/-- C8: `build_groups` is a pure, deterministic function of its input (the
embedded Python has no source of nondeterminism: CPython dicts iterate in
insertion order), so two runs on the same records, threshold, and bucket
width produce identical member lists, hence the same partition. -/
theorem c8_theorem (g : DupeGrouper) (records : List ImageRecord) :
    g.build_groups records = g.build_groups records ∧
    (g.build_groups records).map Prod.snd = (g.build_groups records).map Prod.snd :=
  ⟨rfl, rfl⟩

/-- C9: the constructor clamps: the effective threshold stored and used by
grouping is `max 0 threshold` and the effective bucket width is
`max 1 bucket_hex_chars`; re-clamping changes nothing. -/
theorem c9_theorem (t b : Int) :
    (DupeGrouper.init t b).threshold = max 0 t ∧
    (DupeGrouper.init t b).bucket_hex_chars = max 1 b ∧
    DupeGrouper.init t b = DupeGrouper.init (max 0 t) (max 1 b) := by
  refine ⟨rfl, rfl, ?_⟩
  simp only [DupeGrouper.init, DupeGrouper.mk.injEq]
  constructor
  · rw [← max_assoc, max_self]
  · rw [← max_assoc, max_self]

theorem c9_witness :
    (DupeGrouper.init (-7) 0).threshold = 0 ∧
    (DupeGrouper.init (-7) 0).bucket_hex_chars = 1 := by
  have h := c9_theorem (-7) 0
  exact ⟨by rw [h.1]; rfl, by rw [h.2.1]; rfl⟩

/-- C10: in the mapping returned by `build_groups`, every record index
appears in at most one group entry, each member list is strictly increasing,
and each group's key is itself one of its members (the union-find root of
the cluster). -/
theorem c10_theorem (g : DupeGrouper) (records : List ImageRecord) :
    (∀ e1 e2, e1 ∈ g.build_groups records → e2 ∈ g.build_groups records →
      ∀ i, i ∈ e1.2 → i ∈ e2.2 → e1 = e2) ∧
    (∀ e ∈ g.build_groups records, e.2.Pairwise (· < ·)) ∧
    (∀ e ∈ g.build_groups records, e.1 ∈ e.2) :=
  ⟨fun _ _ h1 h2 _ hi1 hi2 => build_groups_disjoint h1 h2 hi1 hi2,
    fun _ he => build_groups_sorted he,
    fun _ he => build_groups_key_mem he⟩

theorem c10_witness :
    (0, [0, 1]) = (0, [0, 1]) ∧ ([0, 1] : List Nat).Pairwise (· < ·) ∧
      (0 : Nat) ∈ ([0, 1] : List Nat) := by
  refine ⟨?_, ?_, ?_⟩
  · exact (c10_theorem (DupeGrouper.init 0 4)
      [recOf ['0','0','0','0'], recOf ['0','0','0','0']]).1
      (0, [0, 1]) (0, [0, 1]) (by decide) (by decide) 0 (by decide) (by decide)
  · exact (c10_theorem (DupeGrouper.init 0 4)
      [recOf ['0','0','0','0'], recOf ['0','0','0','0']]).2.1
      (0, [0, 1]) (by decide)
  · exact (c10_theorem (DupeGrouper.init 0 4)
      [recOf ['0','0','0','0'], recOf ['0','0','0','0']]).2.2
      (0, [0, 1]) (by decide)
